import Mathlib

/-!
# Verification of the iowow `iwkv` key/value engine specification

Shallow embedding of the parts of `src/src/kv/iwkv.c` (skip-list key/value
store) and the free-space manager (`iwfsmfile.c`, shipped as
`src/unnamed/part_001`) that the specification's testable properties talk
about, together with proofs or refutations of those properties.

Conventions used throughout:

* C byte buffers (`void *` + length) are modelled as `List Nat`; a byte is an
  unsigned char value (no boundedness is required except where stated).
* Machine integers are modelled as `Nat`/`Int`; `double` arithmetic in the
  FSM allocation heuristic is modelled as exact rational arithmetic (`ℚ`).
* Fallible operations return explicit result codes.
* Loops are translated into structural recursion; where a C loop owns a
  cursor pair (`lb`/`ub` of a binary search) the recursion carries explicit
  bounds and a fuel argument equal to the interval length, which matches the
  number of iterations the C loop can make.
-/

namespace Iwkv

/-- A raw byte string (`void *data` + `size_t size` of an `IWKV_val`). -/
abbrev Bytes := List Nat

/-! ## Key comparison (`_cmp_key`, iwkv.c:339-371)

`_cmp_key(dbflg, v1, v1len, v2, v2len)` compares a probed key `v1` with a
search key `v2`.  For byte keys it computes
`rv = strncmp(v2, v1, MIN(v1len, v2len))` and returns
`rv == 0 ? v2len - v1len : rv`; for `IWDB_UINT64_KEYS`/`IWDB_UINT32_KEYS`
databases it decodes both keys as fixed-width big-endian integers
(`IW_ITOHLL`/`IW_ITOHL`) and returns `n1 > n2 ? -1 : n1 < n2 ? 1 : 0`
(falling back to `0` on the `assert(false)` path when a key has the wrong
width). -/

/-- C `strncmp(s1, s2, n)`: compare at most `n` bytes, stopping at the first
difference or at a NUL byte present in both strings.  The callers always pass
`n = MIN(v1len, v2len)`, so the scan never runs past either buffer. -/
def c_strncmp : Bytes → Bytes → Nat → Int
  | _, _, 0 => 0
  | [], _, _ + 1 => 0
  | _ :: _, [], _ + 1 => 0
  | a :: s1, b :: s2, n + 1 =>
    if a ≠ b then (a : Int) - (b : Int)
    else if a = 0 then 0
    else c_strncmp s1 s2 n

/-- Database key-format flags relevant to `_cmp_key`: the `IWDB_UINT32_KEYS`
and `IWDB_UINT64_KEYS` bits of `iwdb_flags_t`.  All other flag bits select
the same `strncmp` branch as `dbflg == 0` and are therefore not represented. -/
structure DbFlg where
  u32 : Bool
  u64 : Bool
deriving DecidableEq, Repr

/-- Byte-key databases (`dbflg = 0`). -/
def DbFlg.plain : DbFlg := ⟨false, false⟩

/-- Big-endian decoding of a byte buffer, as produced by `memcpy` followed by
`IW_ITOHLL`/`IW_ITOHL` (big-endian to host) on the stored key bytes. -/
def beDecode (l : Bytes) : Nat := l.foldl (fun acc b => acc * 256 + b) 0

/-- `_cmp_key` (iwkv.c:339).  `v1` is the probed (stored) key, `v2` the search
key. -/
def cmp_key (dbflg : DbFlg) (v1 v2 : Bytes) : Int :=
  if dbflg.u64 then
    if v1.length = 8 ∧ v2.length = 8 then
      let n1 := beDecode v1
      let n2 := beDecode v2
      if n1 > n2 then -1 else if n1 < n2 then 1 else 0
    else 0  -- assert(false) path: "should never happen"
  else if dbflg.u32 then
    if v1.length = 4 ∧ v2.length = 4 then
      let n1 := beDecode v1
      let n2 := beDecode v2
      if n1 > n2 then -1 else if n1 < n2 then 1 else 0
    else 0
  else
    let rv := c_strncmp v2 v1 (min v2.length v1.length)
    if rv = 0 then (v2.length : Int) - (v1.length : Int) else rv

/-- Keys the engine can actually tell apart: nonempty and NUL-free for byte
databases (a successful `iwkv_put` only rejects empty keys, but `strncmp`
stops at NUL bytes, see the C2 analysis); exactly 8 (resp. 4) bytes, each a
genuine octet, for `IWDB_UINT64_KEYS` (resp. `IWDB_UINT32_KEYS`) databases —
`iwkv_put` rejects any other width with `IWKV_ERROR_KEY_NUM_VALUE_SIZE`. -/
def validKey (dbflg : DbFlg) (k : Bytes) : Prop :=
  if dbflg.u64 then k.length = 8 ∧ ∀ b ∈ k, b < 256
  else if dbflg.u32 then k.length = 4 ∧ ∀ b ∈ k, b < 256
  else k ≠ [] ∧ (0 : Nat) ∉ k

instance : DecidablePred (validKey dbflg) := by
  intro k
  unfold validKey
  split
  · exact instDecidableAnd
  · split
    · exact instDecidableAnd
    · exact instDecidableAnd

/-! ### Reference lexicographic comparison used in proofs -/

/-- Plain lexicographic three-way comparison of byte strings (first differing
byte decides, a strict prefix is smaller).  This is what the specification's
"lexicographic byte compare ... ordering by the first differing byte, then by
length" denotes; it is compared against the `strncmp`-based `cmp_key`. -/
def lexCmp : Bytes → Bytes → Int
  | [], [] => 0
  | [], _ :: _ => -1
  | _ :: _, [] => 1
  | a :: as, b :: bs =>
    if a < b then -1 else if b < a then 1 else lexCmp as bs

theorem lexCmp_self (a : Bytes) : lexCmp a a = 0 := by
  induction a with
  | nil => rfl
  | cons x xs ih => simp [lexCmp, ih]

theorem lexCmp_eq_zero_iff {a b : Bytes} : lexCmp a b = 0 ↔ a = b := by
  constructor
  · intro h
    induction a generalizing b with
    | nil => cases b with
      | nil => rfl
      | cons y ys => simp [lexCmp] at h
    | cons x xs ih =>
      cases b with
      | nil => simp [lexCmp] at h
      | cons y ys =>
        by_cases hxy : x < y
        · simp [lexCmp, hxy] at h
        · by_cases hyx : y < x
          · simp [lexCmp, hxy, hyx] at h
          · have hx : x = y := Nat.le_antisymm (Nat.le_of_not_lt hyx) (Nat.le_of_not_lt hxy)
            simp [lexCmp, hxy, hyx] at h
            simp [hx, ih h]
  · rintro rfl; exact lexCmp_self a

theorem lexCmp_antisym (a b : Bytes) : lexCmp a b = -lexCmp b a := by
  induction a generalizing b with
  | nil => cases b <;> simp [lexCmp]
  | cons x xs ih =>
    cases b with
    | nil => simp [lexCmp]
    | cons y ys =>
      by_cases hxy : x < y
      · have : ¬ y < x := Nat.lt_asymm hxy
        simp [lexCmp, hxy, this]
      · by_cases hyx : y < x
        · simp [lexCmp, hxy, hyx]
        · simp [lexCmp, hxy, hyx, ih ys]

theorem lexCmp_trans {a b c : Bytes} (h₁ : lexCmp a b < 0) (h₂ : lexCmp b c < 0) :
    lexCmp a c < 0 := by
  induction a generalizing b c with
  | nil =>
    cases b with
    | nil => simpa using h₂
    | cons y ys =>
      cases c with
      | nil => simp [lexCmp] at h₂
      | cons z zs => simp [lexCmp]
  | cons x xs ih =>
    cases b with
    | nil => simp [lexCmp] at h₁
    | cons y ys =>
      cases c with
      | nil => simp [lexCmp] at h₂
      | cons z zs =>
        by_cases hxy : x < y
        · by_cases hyz : y < z
          · simp [lexCmp, Nat.lt_trans hxy hyz]
          · by_cases hzy : z < y
            · simp [lexCmp, hzy, Nat.lt_asymm hzy] at h₂
            · have : y = z := Nat.le_antisymm (Nat.le_of_not_lt hzy) (Nat.le_of_not_lt hyz)
              subst this
              simp [lexCmp, hxy]
        · by_cases hyx : y < x
          · simp [lexCmp, hxy, hyx] at h₁
          · have hx : x = y := Nat.le_antisymm (Nat.le_of_not_lt hyx) (Nat.le_of_not_lt hxy)
            subst hx
            by_cases hyz : x < z
            · simp [lexCmp, hyz]
            · by_cases hzy : z < x
              · simp [lexCmp, hzy, Nat.lt_asymm hzy] at h₂
              · have : x = z := Nat.le_antisymm (Nat.le_of_not_lt hzy) (Nat.le_of_not_lt hyz)
                subst this
                simp [lexCmp, lt_irrefl] at h₁ h₂ ⊢
                exact ih (by simpa using h₁) (by simpa using h₂)

/-! ### The `strncmp`-based byte comparison versus plain lexicographic order -/

/-- The full byte-key comparison `_cmp_key` performs (arguments in C order):
`strncmp` over the shared prefix, then the length difference. -/
def strCmpFull (a b : Bytes) : Int :=
  let r := c_strncmp a b (min a.length b.length)
  if r = 0 then (a.length : Int) - (b.length : Int) else r

theorem cmp_key_plain (v1 v2 : Bytes) : cmp_key DbFlg.plain v1 v2 = strCmpFull v2 v1 := rfl

/-- On byte strings at least one of which is NUL-free, the `strncmp`-based
comparison agrees in sign with plain lexicographic comparison. -/
theorem strCmpFull_lex {a b : Bytes} (h : (0 : Nat) ∉ a ∨ (0 : Nat) ∉ b) :
    (strCmpFull a b < 0 ↔ lexCmp a b < 0) ∧ (strCmpFull a b = 0 ↔ lexCmp a b = 0) := by
  induction a generalizing b with
  | nil =>
    cases b with
    | nil => simp [strCmpFull, c_strncmp, lexCmp]
    | cons y ys => simp [strCmpFull, c_strncmp, lexCmp]; omega
  | cons x xs ih =>
    cases b with
    | nil =>
      simp [strCmpFull, c_strncmp, lexCmp]
      omega
    | cons y ys =>
      by_cases hxy : x = y
      · subst hxy
        have hx0 : x ≠ 0 := by
          rcases h with h | h <;> exact fun heq => h (by simp [heq.symm])
        have harg : (0 : Nat) ∉ xs ∨ (0 : Nat) ∉ ys := by
          rcases h with h | h
          · exact Or.inl fun hc => h (List.mem_cons_of_mem _ hc)
          · exact Or.inr fun hc => h (List.mem_cons_of_mem _ hc)
        have hred : strCmpFull (x :: xs) (x :: ys) = strCmpFull xs ys := by
          simp only [strCmpFull, List.length_cons]
          have hmin : min (xs.length + 1) (ys.length + 1) = min xs.length ys.length + 1 := by
            omega
          rw [hmin]
          simp only [c_strncmp, if_neg (by simp : ¬ x ≠ x), if_neg hx0]
          have : ((xs.length : Int) + 1) - ((ys.length : Int) + 1)
              = (xs.length : Int) - (ys.length : Int) := by ring
          split <;> omega
        have hlex : lexCmp (x :: xs) (x :: ys) = lexCmp xs ys := by
          simp [lexCmp]
        rw [hred, hlex]
        exact ih harg
      · have hcmp : c_strncmp (x :: xs) (y :: ys)
            (min (x :: xs).length (y :: ys).length) = (x : Int) - (y : Int) := by
          simp only [List.length_cons]
          have hmin : min (xs.length + 1) (ys.length + 1) = min xs.length ys.length + 1 := by
            omega
          rw [hmin]
          simp [c_strncmp, hxy]
        constructor
        · rw [strCmpFull]
          simp only [hcmp]
          rcases Nat.lt_or_ge x y with hlt | hge
          · simp [lexCmp, hlt]; omega
          · have hyx : y < x := lt_of_le_of_ne hge (Ne.symm hxy)
            simp [lexCmp, Nat.lt_asymm hyx, hyx]; omega
        · rw [strCmpFull]
          simp only [hcmp]
          rcases Nat.lt_or_ge x y with hlt | hge
          · simp [lexCmp, hlt]; omega
          · have hyx : y < x := lt_of_le_of_ne hge (Ne.symm hxy)
            simp [lexCmp, Nat.lt_asymm hyx, hyx]; omega

/-! ### Big-endian decoding versus lexicographic order -/

theorem beDecode_aux (l : Bytes) (acc : Nat) :
    l.foldl (fun acc b => acc * 256 + b) acc = acc * 256 ^ l.length + beDecode l := by
  induction l generalizing acc with
  | nil => simp [beDecode]
  | cons x xs ih =>
    simp only [List.foldl_cons, List.length_cons, beDecode]
    rw [ih (acc * 256 + x), ih (0 * 256 + x)]
    ring

theorem beDecode_cons (x : Nat) (xs : Bytes) :
    beDecode (x :: xs) = x * 256 ^ xs.length + beDecode xs := by
  show List.foldl (fun acc b => acc * 256 + b) 0 (x :: xs) = _
  rw [List.foldl_cons, beDecode_aux xs (0 * 256 + x)]
  ring_nf

theorem beDecode_lt_pow {l : Bytes} (h : ∀ b ∈ l, b < 256) :
    beDecode l < 256 ^ l.length := by
  induction l with
  | nil => simp [beDecode]
  | cons x xs ih =>
    rw [beDecode_cons]
    have hx : x < 256 := h x (by simp)
    have hxs : beDecode xs < 256 ^ xs.length := ih (fun b hb => h b (by simp [hb]))
    have : x * 256 ^ xs.length + beDecode xs < (x + 1) * 256 ^ xs.length := by
      nlinarith [pow_pos (by norm_num : (0:ℕ) < 256) xs.length]
    calc x * 256 ^ xs.length + beDecode xs < (x + 1) * 256 ^ xs.length := this
      _ ≤ 256 * 256 ^ xs.length := by
          have : x + 1 ≤ 256 := hx
          nlinarith [pow_pos (by norm_num : (0:ℕ) < 256) xs.length]
      _ = 256 ^ (xs.length + 1) := by ring
      _ = 256 ^ (x :: xs).length := by simp

/-- For equal-length byte strings of genuine octets, big-endian numeric order
is lexicographic order. -/
theorem beDecode_lt_iff {a b : Bytes} (hlen : a.length = b.length)
    (ha : ∀ x ∈ a, x < 256) (hb : ∀ x ∈ b, x < 256) :
    (beDecode a < beDecode b ↔ lexCmp a b < 0) ∧ (beDecode a = beDecode b ↔ lexCmp a b = 0) := by
  induction a generalizing b with
  | nil =>
    cases b with
    | nil => simp [beDecode, lexCmp]
    | cons y ys => simp at hlen
  | cons x xs ih =>
    cases b with
    | nil => simp at hlen
    | cons y ys =>
      have hlen' : xs.length = ys.length := by simpa using hlen
      have hx : x < 256 := ha x (by simp)
      have hy : y < 256 := hb y (by simp)
      have hxs : ∀ v ∈ xs, v < 256 := fun v hv => ha v (by simp [hv])
      have hys : ∀ v ∈ ys, v < 256 := fun v hv => hb v (by simp [hv])
      have hd1 : beDecode (x :: xs) = x * 256 ^ ys.length + beDecode xs := by
        rw [beDecode_cons, hlen']
      have hd2 : beDecode (y :: ys) = y * 256 ^ ys.length + beDecode ys := beDecode_cons y ys
      have hbx : beDecode xs < 256 ^ ys.length := hlen' ▸ beDecode_lt_pow hxs
      have hby : beDecode ys < 256 ^ ys.length := beDecode_lt_pow hys
      rcases Nat.lt_trichotomy x y with hlt | heq | hgt
      · have : beDecode (x :: xs) < beDecode (y :: ys) := by
          rw [hd1, hd2]
          nlinarith [pow_pos (by norm_num : (0:ℕ) < 256) ys.length]
        constructor
        · simp [lexCmp, hlt, this]
        · constructor
          · intro h; omega
          · intro h; simp [lexCmp, hlt] at h
      · subst heq
        have heq1 : (beDecode (x :: xs) < beDecode (x :: ys) ↔ beDecode xs < beDecode ys) := by
          rw [hd1, hd2]; omega
        have heq2 : (beDecode (x :: xs) = beDecode (x :: ys) ↔ beDecode xs = beDecode ys) := by
          rw [hd1, hd2]; omega
        have hlex : lexCmp (x :: xs) (x :: ys) = lexCmp xs ys := by simp [lexCmp]
        rw [heq1, heq2, hlex]
        exact ih hlen' hxs hys
      · have : beDecode (y :: ys) < beDecode (x :: xs) := by
          rw [hd1, hd2]
          nlinarith [pow_pos (by norm_num : (0:ℕ) < 256) ys.length]
        constructor
        · constructor
          · intro h; omega
          · intro h; simp [lexCmp, Nat.lt_asymm hgt, hgt] at h
        · constructor
          · intro h; omega
          · intro h; simp [lexCmp, Nat.lt_asymm hgt, hgt] at h

/-! ### Sign characterization of `_cmp_key` on valid keys -/

theorem c_strncmp_self (a : Bytes) (n : Nat) : c_strncmp a a n = 0 := by
  induction a generalizing n with
  | nil => cases n <;> rfl
  | cons x xs ih =>
    cases n with
    | zero => rfl
    | succ m =>
      by_cases hx : x = 0
      · simp [c_strncmp, hx]
      · simp [c_strncmp, hx, ih]

theorem cmp_key_self (f : DbFlg) (a : Bytes) : cmp_key f a a = 0 := by
  unfold cmp_key
  split
  · split
    · simp
    · rfl
  · split
    · split
      · simp
      · rfl
    · simp [c_strncmp_self]

/-- Sign behaviour of the numeric-key branch of `_cmp_key`. -/
theorem numCmp_lex {a b : Bytes} {w : Nat} (hal : a.length = w) (hbl : b.length = w)
    (hab : ∀ x ∈ a, x < 256) (hbb : ∀ x ∈ b, x < 256) :
    (((if beDecode a > beDecode b then (-1 : Int)
       else if beDecode a < beDecode b then 1 else 0) < 0) ↔ lexCmp b a < 0) ∧
    (((if beDecode a > beDecode b then (-1 : Int)
       else if beDecode a < beDecode b then 1 else 0) = 0) ↔ lexCmp b a = 0) := by
  have hlen : b.length = a.length := by omega
  have hiff := beDecode_lt_iff hlen hbb hab
  constructor
  · constructor
    · intro h
      split at h
      · exact hiff.1.mp (by omega)
      · split at h <;> omega
    · intro h
      have : beDecode b < beDecode a := hiff.1.mpr h
      simp only [gt_iff_lt]
      rw [if_pos this]
      omega
  · constructor
    · intro h
      split at h
      · omega
      · split at h
        · omega
        · exact hiff.2.mp (by omega)
    · intro h
      have heq : beDecode b = beDecode a := hiff.2.mpr h
      simp only [gt_iff_lt]
      rw [if_neg (by omega), if_neg (by omega)]

/-- On valid keys the comparator is (reversed) lexicographic: `cmp_key v1 v2`
is negative exactly when `v2` is lexicographically smaller than `v1`, and zero
exactly when the keys are the same byte string. -/
theorem cmp_key_lex {f : DbFlg} {a b : Bytes}
    (ha : validKey f a) (hb : validKey f b) :
    (cmp_key f a b < 0 ↔ lexCmp b a < 0) ∧ (cmp_key f a b = 0 ↔ lexCmp b a = 0) := by
  obtain ⟨u32, u64⟩ := f
  cases u64
  · cases u32
    · simp only [validKey, cmp_key, if_neg (by simp : ¬(DbFlg.mk false false).u64 = true),
        if_neg (by simp : ¬(DbFlg.mk false false).u32 = true)] at ha hb ⊢
      exact strCmpFull_lex (a := b) (b := a) (Or.inl hb.2)
    · simp only [validKey, cmp_key, if_neg (by simp : ¬(DbFlg.mk true false).u64 = true),
        if_pos (by simp : (DbFlg.mk true false).u32 = true)] at ha hb ⊢
      rw [if_pos (show a.length = 4 ∧ b.length = 4 from ⟨ha.1, hb.1⟩)]
      exact numCmp_lex ha.1 hb.1 ha.2 hb.2
  · simp only [validKey, cmp_key,
      if_pos (by simp : (DbFlg.mk u32 true).u64 = true)] at ha hb ⊢
    rw [if_pos (show a.length = 8 ∧ b.length = 8 from ⟨ha.1, hb.1⟩)]
    exact numCmp_lex ha.1 hb.1 ha.2 hb.2

theorem cmp_key_eq_iff {f : DbFlg} {a b : Bytes}
    (ha : validKey f a) (hb : validKey f b) : cmp_key f a b = 0 ↔ a = b := by
  rw [(cmp_key_lex ha hb).2, lexCmp_eq_zero_iff]
  exact ⟨fun h => h.symm, fun h => h.symm⟩

theorem cmp_key_pos_iff {f : DbFlg} {a b : Bytes}
    (ha : validKey f a) (hb : validKey f b) : 0 < cmp_key f a b ↔ lexCmp a b < 0 := by
  obtain ⟨hlt, heq⟩ := cmp_key_lex ha hb
  constructor
  · intro h
    have h1 : ¬ lexCmp b a < 0 := fun hc => by omega
    have h2 : lexCmp b a ≠ 0 := fun hc => by
      have := heq.mpr hc
      omega
    have := lexCmp_antisym a b
    omega
  · intro h
    have hba : 0 < lexCmp b a := by
      have := lexCmp_antisym a b
      omega
    have h1 : ¬ cmp_key f a b < 0 := fun hc => by
      have := hlt.mp hc
      omega
    have h2 : cmp_key f a b ≠ 0 := fun hc => by
      have := heq.mp hc
      omega
    omega

/-! ## The skip-list store model

An `SBLK` node is modelled by the list of its live key/value pairs in `pi[]`
order (the permutation `pi` dereferenced through the node's `KVBLK` slots);
`pnum` is the list length and the inline lower key `lk` is the key of the
first pair (`_lx_sblk_cmp_key` compares the search key against `lk`, which by
invariant I4 is a prefix of — or, under `SBLK_FULL_LKEY`, equal to — the key
at `pi[0]`; a prefix comparison by `_cmp_key` has the same sign as comparing
the full key at `pi[0]`, so the model compares full keys).

A database is modelled by its level-0 chain of nodes, in chain order,
excluding the database-header sentinel.  The higher-level forward pointers
`n[1..]` only accelerate the descent: by invariant I1 every forward pointer
skips only nodes whose keys compare below the target, so `_lx_find_bounds`
lands on the same `lower` node as the level-0 walk modelled here. -/

/-- One key/value pair of a `KVBLK` slot. -/
structure KVPair where
  key : Bytes
  val : Bytes
deriving DecidableEq, Repr

/-- An `SBLK` node: its `pi[]`-ordered live pairs. -/
abbrev Node := List KVPair

/-- `KVBLK_IDXNUM`: capacity of one node. -/
def KVBLK_IDXNUM : Nat := 32

/-- The key at `pi[0]` (the node's `lk` lower key).  Empty nodes never take
part in comparisons (`_lx_sblk_cmp_key` fails with `IWKV_ERROR_CORRUPTED`). -/
def nodeMinKey (n : Node) : Bytes :=
  match n with
  | [] => []
  | p :: _ => p.key

/-- The `_lx_roll_forward`/`_lx_find_bounds` descent, restricted to level 0:
starting from the database header, advance into each successive node while
`_lx_sblk_cmp_key(node, key) ≤ 0` and stop at the first node whose lower key
compares above the search key (that node becomes `upper`).  Returns the chain
index of the final `lower` node, or `none` when `lower` stays at the database
header block. -/
def findLowerIdx (f : DbFlg) (k : Bytes) : List Node → Option Nat
  | [] => none
  | n :: rest =>
    if 0 < cmp_key f (nodeMinKey n) k then none
    else some (match findLowerIdx f k rest with
               | none => 0
               | some i => i + 1)

/-- Key of the pair at index `i`, `[]` out of bounds (never consulted). -/
def keyAt (ps : List KVPair) (i : Nat) : Bytes :=
  match ps[i]? with
  | some p => p.key
  | none => []

/-- The binary-search loop shared by `_sblk_find_pi_mm` and
`_sblk_insert_pi_mm` (iwkv.c:1822, 1863).  `lb`/`ubx` are the C loop's `lb`
and `ub + 1` (the loop maintains `0 ≤ lb ≤ ub`, and `ub = idx - 1` with
`idx = 0` makes `lb > ub` hold, i.e. `lb ≥ ubx`).  `fuel` bounds the number
of iterations; any `fuel ≥ ubx - lb` yields the loop's exit value. -/
def findPiLoop (f : DbFlg) (ps : List KVPair) (k : Bytes) :
    Nat → Nat → Nat → Bool × Nat
  | 0, lb, _ => (false, lb)
  | fuel + 1, lb, ubx =>
    let idx := (ubx - 1 + lb) / 2
    let cr := cmp_key f (keyAt ps idx) k
    if cr = 0 then (true, idx)
    else if cr < 0 then
      -- lb = idx + 1; if (lb > ub) { idx = lb; break; }
      if ubx ≤ idx + 1 then (false, idx + 1)
      else findPiLoop f ps k fuel (idx + 1) ubx
    else
      -- ub = idx - 1; if (lb > ub) break;
      if idx ≤ lb then (false, idx)
      else findPiLoop f ps k fuel lb idx

/-- `_sblk_find_pi_mm` on a non-header node: binary-search the permutation,
returning `(found, idx)` where `idx` is the match or the insertion point. -/
def sblk_find_pi (f : DbFlg) (n : Node) (k : Bytes) : Bool × Nat :=
  if n.length < 1 then (false, 0)
  else findPiLoop f n k n.length 0 n.length

/-- `_sblk_insert_pi_mm`: binary-search-then-shift insert of a new slot.  When
the loop exits on an exact match it inserts at the probe index without
growing `pnum` (shifting the last slot out) — callers only insert keys that
are not present, so that branch is dead in well-formed use. -/
def sblk_insert_pi (f : DbFlg) (ps : Node) (p : KVPair) : Node :=
  if ps.length < 1 then [p]
  else
    let r := findPiLoop f ps p.key ps.length 0 ps.length
    if r.1 then (ps.insertIdx r.2 p).dropLast
    else ps.insertIdx r.2 p

/-- `_sblk_addkv`: append through `_kvblk_addkv` + `_sblk_insert_pi_mm`;
fails with `_IWKV_ERROR_KVBLOCK_FULL` (`none`) when the node is full. -/
def sblk_addkv (f : DbFlg) (n : Node) (p : KVPair) : Option Node :=
  if KVBLK_IDXNUM ≤ n.length then none
  else some (sblk_insert_pi f n p)

/-- `_sblk_addkv2`: insert at a caller-supplied permutation index. -/
def sblk_addkv2 (n : Node) (idx : Nat) (p : KVPair) : Option Node :=
  if KVBLK_IDXNUM ≤ n.length then none
  else some (n.insertIdx idx p)

/-- `_sblk_updatekv` → `_kvblk_updatev`: rewrite the value of slot
`pi[idx]` in place.  `_kvblk_updatev` verifies that the stored key bytes
equal the put key and fails with `IWKV_ERROR_CORRUPTED` otherwise; the stored
key is never rewritten. -/
def sblk_updatekv (n : Node) (idx : Nat) (k v : Bytes) : Option Node :=
  match n[idx]? with
  | none => none
  | some p => if p.key = k then some (n.set idx ⟨p.key, v⟩) else none

/-- `_sblk_rmkv`: drop slot `pi[idx]` (shifting the permutation, refreshing
`lk` when `idx = 0`). -/
def sblk_rmkv (n : Node) (idx : Nat) : Node := n.eraseIdx idx

/-- `_lx_split_addkv` (iwkv.c:2188): split `sblk` (full, `pnum = 32`) while
inserting a new pair whose insertion index is `idx`.
`pivot = KVBLK_IDXNUM / 2 + 1 = 17`.  If `idx = pnum` the new node `nb` only
receives the new pair; otherwise the pairs at permutation indices
`pivot..pnum-1` move into `nb` (`_sblk_addkv2` at successive indices
`i - pivot`, preserving their order) and the new pair is added to `nb` when
`idx > pivot`, else to `sblk`.  Returns `(sblk', nb)`; the caller links `nb`
directly after `sblk'` in the chain. -/
def lx_split_addkv (f : DbFlg) (n : Node) (idx : Nat) (p : KVPair) :
    Option (Node × Node) :=
  let pivot := KVBLK_IDXNUM / 2 + 1
  if idx = n.length then
    (sblk_addkv f [] p).map fun nb => (n, nb)
  else
    let moved := n.drop pivot
    let lower := n.take pivot
    if pivot < idx then
      (sblk_addkv f moved p).map fun nb => (lower, nb)
    else
      (sblk_addkv f lower p).map fun low => (low, moved)

/-- Result codes of the public operations (subset of `iwrc`). -/
inductive RC
  | ok
  | notFound
  | keyExists
  | invalidArgs
  | keyNumValueSize
  | corrupted
deriving DecidableEq, Repr

/-- `_lx_put_lw`/`_lx_addkv` (iwkv.c:2293-2379): descend, then
1. found and `IWKV_NO_OVERWRITE` → `IWKV_ERROR_KEY_EXISTS`;
2. found → `_sblk_updatekv`;
3. not found, node has room → `_sblk_addkv2` at the insertion index;
4. not found, node full, insertion index at the right edge and the `upper`
   neighbour has room → `_sblk_addkv` into `upper`;
5. otherwise `_lx_put_lw` re-descends with a generated level
   (`_IWKV_ERROR_REQUIRE_NLEVEL`) and `_lx_split_addkv` splits the node, the
   new node being linked right after it.
When `lower` is the database header block (`findLowerIdx = none`),
`_sblk_find_pi_mm` reports `found = false, idx = KVBLK_IDXNUM` and the header
behaves as a full node, so the insert goes to the first chain node (case 4)
or a fresh node is linked at the head of the chain (case 5 with
`idx = pnum`).  A `_IWKV_ERROR_KVBLOCK_FULL` leak is translated to
`IWKV_ERROR_CORRUPTED`. -/
def lx_put (f : DbFlg) (s : List Node) (k v : Bytes) (noOverwrite : Bool) :
    RC × List Node :=
  match findLowerIdx f k s with
  | none =>
    match s with
    | [] => (.ok, [[⟨k, v⟩]])
    | u :: rest =>
      if u.length < KVBLK_IDXNUM then
        match sblk_addkv f u ⟨k, v⟩ with
        | some u' => (.ok, u' :: rest)
        | none => (.corrupted, s)
      else (.ok, [⟨k, v⟩] :: s)
  | some i =>
    let n := s.getD i []
    let r := sblk_find_pi f n k
    if r.1 then
      if noOverwrite then (.keyExists, s)
      else
        match sblk_updatekv n r.2 k v with
        | some n' => (.ok, s.set i n')
        | none => (.corrupted, s)
    else if n.length < KVBLK_IDXNUM then
      match sblk_addkv2 n r.2 ⟨k, v⟩ with
      | some n' => (.ok, s.set i n')
      | none => (.corrupted, s)
    else
      match s[i + 1]? with
      | some u =>
        if KVBLK_IDXNUM - 1 < r.2 ∧ u.length < KVBLK_IDXNUM then
          match sblk_addkv f u ⟨k, v⟩ with
          | some u' => (.ok, s.set (i + 1) u')
          | none => (.corrupted, s)
        else
          match lx_split_addkv f n r.2 ⟨k, v⟩ with
          | some (n', nb) => (.ok, (s.set i n').insertIdx (i + 1) nb)
          | none => (.corrupted, s)
      | none =>
        match lx_split_addkv f n r.2 ⟨k, v⟩ with
        | some (n', nb) => (.ok, (s.set i n').insertIdx (i + 1) nb)
        | none => (.corrupted, s)

/-- `_lx_get_lr` (iwkv.c:2376): descend, `_sblk_find_pi_mm` on `lower`, copy
the value out on a hit, else `IWKV_ERROR_NOTFOUND` (`none`). -/
def lx_get (f : DbFlg) (s : List Node) (k : Bytes) : Option Bytes :=
  match findLowerIdx f k s with
  | none => none
  | some i =>
    let n := s.getD i []
    let r := sblk_find_pi f n k
    if r.1 then
      match n[r.2]? with
      | some p => some p.val
      | none => none
    else none

/-- `_lx_del_lw` (iwkv.c:2401): descend, `_sblk_find_pi_mm`; not found →
`IWKV_ERROR_NOTFOUND` with no mutation; found with `pnum > 1` →
`_sblk_rmkv`; found with `pnum = 1` → re-descend pinning rails, unlink the
node from every level and destroy it together with its `KVBLK`. -/
def lx_del (f : DbFlg) (s : List Node) (k : Bytes) : RC × List Node :=
  match findLowerIdx f k s with
  | none => (.notFound, s)
  | some i =>
    let n := s.getD i []
    let r := sblk_find_pi f n k
    if r.1 then
      if n.length = 1 then (.ok, s.eraseIdx i)
      else (.ok, s.set i (sblk_rmkv n r.2))
    else (.notFound, s)

/-- `iwkv_put` (iwkv.c:2838): argument validation in API order —
`!db || !db->iwkv || !key || !key->size || !val` → `IW_ERROR_INVALID_ARGS`
(checked before any lock is taken), then the numeric-key width check, then
the locked `_lx_put_lw`.  `db`/`db->iwkv` being non-NULL is implicit in
having a database state to run against; the `IWKV_RDONLY` and `IWKV_SYNC`
paths are not modelled. -/
def iwkv_put (f : DbFlg) (s : List Node) (key val : Option Bytes)
    (noOverwrite : Bool) : RC × List Node :=
  match key, val with
  | none, _ => (.invalidArgs, s)
  | some _, none => (.invalidArgs, s)
  | some k, some v =>
    if k.length = 0 then (.invalidArgs, s)
    else if (f.u32 ∧ k.length ≠ 4) ∨ (f.u64 ∧ k.length ≠ 8) then
      (.keyNumValueSize, s)
    else lx_put f s k v noOverwrite

/-- The cursor positioning ops relevant here (`IWKV_CURSOR_EQ`,
`IWKV_CURSOR_GE` of `iwkv_cursor_op`). -/
inductive CursorOp
  | EQ
  | GE
deriving DecidableEq, Repr

/-- `_cursor_get_ge_idx` (iwkv.c:2471) as called from `_cursor_to_lr` with
`IWKV_CURSOR_EQ`/`IWKV_CURSOR_GE`: descend, `_sblk_find_pi_mm` on `lower`;
on a hit the cursor is `(lower, idx)`; on a miss `IWKV_CURSOR_EQ`, a `lower`
that is the database header (`SBLK_DB`, i.e. `findLowerIdx = none`) or an
empty `lower` yield `IWKV_ERROR_NOTFOUND`; otherwise the cursor position is
`idx - 1` (or `idx` when `idx = 0`). -/
def cursor_to_key (f : DbFlg) (s : List Node) (k : Bytes) (op : CursorOp) :
    Option (Nat × Nat) :=
  match findLowerIdx f k s with
  | none => none
  | some i =>
    let n := s.getD i []
    let r := sblk_find_pi f n k
    if r.1 then some (i, r.2)
    else if op = .EQ ∨ n.length < 1 then none
    else some (i, if r.2 = 0 then r.2 else r.2 - 1)

/-! ### Well-formedness -/

/-- All pairs of the database in key order (chain order, then `pi[]` order). -/
def dbPairs (s : List Node) : List KVPair := s.flatten

/-- All keys of the database in comparator order. -/
def dbKeys (s : List Node) : List Bytes := (dbPairs s).map KVPair.key

/-- The strict "comes before" order the skip list maintains: `a` precedes `b`
when `_cmp_key(a, b) < 0` (for byte keys this is *descending* lexicographic
order, see `cmp_key_lex`). -/
def keyLt (f : DbFlg) (a b : Bytes) : Prop := cmp_key f a b < 0

instance : ∀ a b, Decidable (keyLt f a b) := fun _ _ => by
  unfold keyLt; infer_instance

/-- Well-formed database state: every node is non-empty with at most
`KVBLK_IDXNUM` pairs (invariant I2), every stored key is valid, and the keys
are strictly ordered by the database comparator across the whole chain
(invariants I1/I3). -/
def wfDb (f : DbFlg) (s : List Node) : Prop :=
  (∀ n ∈ s, n ≠ [] ∧ n.length ≤ KVBLK_IDXNUM) ∧
  (∀ K ∈ dbKeys s, validKey f K) ∧
  (dbKeys s).Pairwise (keyLt f)

instance : ∀ s, Decidable (wfDb f s) := fun s => by
  unfold wfDb; infer_instance

/-! ## Order lemmas for `keyLt` -/

theorem keyLt_irrefl (f : DbFlg) (a : Bytes) : ¬ keyLt f a a := by
  unfold keyLt
  rw [cmp_key_self]
  omega

theorem keyLt_iff_lex {f : DbFlg} {a b : Bytes} (ha : validKey f a) (hb : validKey f b) :
    keyLt f a b ↔ lexCmp b a < 0 := (cmp_key_lex ha hb).1

theorem keyLt_trans {f : DbFlg} {a b c : Bytes}
    (ha : validKey f a) (hb : validKey f b) (hc : validKey f c)
    (h₁ : keyLt f a b) (h₂ : keyLt f b c) : keyLt f a c := by
  rw [keyLt_iff_lex ha hb] at h₁
  rw [keyLt_iff_lex hb hc] at h₂
  rw [keyLt_iff_lex ha hc]
  exact lexCmp_trans h₂ h₁

theorem keyLt_asymm {f : DbFlg} {a b : Bytes}
    (ha : validKey f a) (hb : validKey f b)
    (h : keyLt f a b) : ¬ keyLt f b a := by
  intro h'
  exact keyLt_irrefl f a (keyLt_trans ha hb ha h h')

theorem keyLt_of_cmp_pos {f : DbFlg} {a b : Bytes}
    (ha : validKey f a) (hb : validKey f b) :
    0 < cmp_key f a b ↔ keyLt f b a := by
  rw [cmp_key_pos_iff ha hb]
  unfold keyLt
  rw [(cmp_key_lex hb ha).1]

theorem keyLt_ne {f : DbFlg} {a b : Bytes} (h : keyLt f a b) : a ≠ b := by
  rintro rfl
  exact keyLt_irrefl f a h

/-! ## Binary search specification -/

theorem keyAt_eq {ps : List KVPair} {i : Nat} (h : i < ps.length) :
    keyAt ps i = (ps.get ⟨i, h⟩).key := by
  simp [keyAt, List.getElem?_eq_getElem h]

/-- Postcondition of the `_sblk_find_pi_mm`/`_sblk_insert_pi_mm` binary
search: either an exact hit, or an insertion point bracketed by the keys. -/
def FindSpec (f : DbFlg) (ps : List KVPair) (k : Bytes) (r : Bool × Nat)
    (lb ubx : Nat) : Prop :=
  (r.1 = true → r.2 < ps.length ∧ keyAt ps r.2 = k) ∧
  (r.1 = false → lb ≤ r.2 ∧ r.2 ≤ ubx ∧ (∀ j, j < r.2 → keyLt f (keyAt ps j) k) ∧
    ∀ j, r.2 ≤ j → j < ps.length → keyLt f k (keyAt ps j))

theorem pairwise_keys_getElem {f : DbFlg} {ps : List KVPair}
    (hsort : (ps.map KVPair.key).Pairwise (keyLt f))
    {i j : Nat} (hi : i < ps.length) (hj : j < ps.length) (hij : i < j) :
    keyLt f (keyAt ps i) (keyAt ps j) := by
  rw [keyAt_eq hi, keyAt_eq hj]
  rw [List.pairwise_iff_getElem] at hsort
  have := hsort i j (by simpa using hi) (by simpa using hj) hij
  simpa using this

theorem validKey_keyAt {f : DbFlg} {ps : List KVPair}
    (hval : ∀ p ∈ ps, validKey f p.key) {i : Nat} (hi : i < ps.length) :
    validKey f (keyAt ps i) := by
  rw [keyAt_eq hi]
  exact hval _ (ps.get_mem i hi)

theorem findPiLoop_spec {f : DbFlg} {ps : List KVPair} {k : Bytes}
    (hsort : (ps.map KVPair.key).Pairwise (keyLt f))
    (hval : ∀ p ∈ ps, validKey f p.key) (hk : validKey f k) :
    ∀ fuel lb ubx, lb < ubx → ubx ≤ ps.length → ubx - lb ≤ fuel →
      (∀ j, j < lb → keyLt f (keyAt ps j) k) →
      (∀ j, ubx ≤ j → j < ps.length → keyLt f k (keyAt ps j)) →
      FindSpec f ps k (findPiLoop f ps k fuel lb ubx) lb ubx := by
  intro fuel
  induction fuel with
  | zero => intro lb ubx h1 _ h3 _ _; omega
  | succ m ih =>
    intro lb ubx hlt hle hfuel hlow hhigh
    have hidx_lb : lb ≤ (ubx - 1 + lb) / 2 := by omega
    have hidx_ub : (ubx - 1 + lb) / 2 < ubx := by omega
    have hidx_len : (ubx - 1 + lb) / 2 < ps.length := by omega
    rw [findPiLoop]
    set idx := (ubx - 1 + lb) / 2 with hidx_def
    have hvidx : validKey f (keyAt ps idx) := validKey_keyAt hval hidx_len
    by_cases hcr0 : cmp_key f (keyAt ps idx) k = 0
    · rw [if_pos hcr0]
      have hkeq : keyAt ps idx = k := (cmp_key_eq_iff hvidx hk).mp hcr0
      exact ⟨fun _ => ⟨hidx_len, hkeq⟩, fun hf => by simp at hf⟩
    · rw [if_neg hcr0]
      by_cases hcrneg : cmp_key f (keyAt ps idx) k < 0
      · rw [if_pos hcrneg]
        have hkidx : keyLt f (keyAt ps idx) k := hcrneg
        have hlow2 : ∀ j, j < idx + 1 → keyLt f (keyAt ps j) k := by
          intro j hj
          rcases Nat.lt_or_ge j lb with hjlb | hjlb
          · exact hlow j hjlb
          · rcases Nat.lt_or_ge j idx with hji | hji
            · exact keyLt_trans (validKey_keyAt hval (by omega)) hvidx hk
                (pairwise_keys_getElem hsort (by omega) hidx_len hji) hkidx
            · have hje : j = idx := by omega
              rw [hje]; exact hkidx
        by_cases hstop : ubx ≤ idx + 1
        · rw [if_pos hstop]
          refine ⟨fun ht => by simp at ht, fun _ => ⟨by omega, by omega, hlow2, ?_⟩⟩
          intro j hj hjlen
          exact hhigh j (by omega) hjlen
        · rw [if_neg hstop]
          have hrec := ih (idx + 1) ubx (by omega) hle (by omega) hlow2 hhigh
          obtain ⟨ht, hf⟩ := hrec
          refine ⟨ht, fun h0 => ?_⟩
          obtain ⟨h1, h2, h3, h4⟩ := hf h0
          exact ⟨by omega, h2, h3, h4⟩
      · rw [if_neg hcrneg]
        have hcr_pos : 0 < cmp_key f (keyAt ps idx) k := by omega
        have hkidx : keyLt f k (keyAt ps idx) := (keyLt_of_cmp_pos hvidx hk).mp hcr_pos
        have hhigh2 : ∀ j, idx ≤ j → j < ps.length → keyLt f k (keyAt ps j) := by
          intro j hj hjlen
          rcases Nat.lt_or_ge j ubx with hjub | hjub
          · rcases Nat.lt_or_ge idx j with hij | hij
            · exact keyLt_trans hk hvidx (validKey_keyAt hval hjlen)
                hkidx (pairwise_keys_getElem hsort hidx_len hjlen hij)
            · have hje : j = idx := by omega
              rw [hje]; exact hkidx
          · exact hhigh j hjub hjlen
        by_cases hstop : idx ≤ lb
        · rw [if_pos hstop]
          refine ⟨fun ht => by simp at ht, fun _ => ⟨by omega, by omega, ?_, hhigh2⟩⟩
          intro j hj
          exact hlow j (by omega)
        · rw [if_neg hstop]
          have hrec := ih lb idx (by omega) (by omega) (by omega) hlow hhigh2
          obtain ⟨ht, hf⟩ := hrec
          refine ⟨ht, fun h0 => ?_⟩
          obtain ⟨h1, h2, h3, h4⟩ := hf h0
          exact ⟨h1, by omega, h3, h4⟩

/-! ### Consequences for `_sblk_find_pi_mm` and `_sblk_insert_pi_mm` -/

theorem sblk_find_pi_spec {f : DbFlg} {n : Node} {k : Bytes}
    (hsort : (n.map KVPair.key).Pairwise (keyLt f))
    (hval : ∀ p ∈ n, validKey f p.key) (hk : validKey f k) (hne : n ≠ []) :
    FindSpec f n k (sblk_find_pi f n k) 0 n.length := by
  have hlen : 0 < n.length := List.length_pos.mpr hne
  unfold sblk_find_pi
  rw [if_neg (by omega)]
  exact findPiLoop_spec hsort hval hk n.length 0 n.length hlen le_rfl (by omega)
    (by intro j hj; omega) (by intro j hj hjl; omega)

theorem sblk_find_pi_found {f : DbFlg} {n : Node} {k : Bytes}
    (hsort : (n.map KVPair.key).Pairwise (keyLt f))
    (hval : ∀ p ∈ n, validKey f p.key) (hk : validKey f k) (hne : n ≠ [])
    (hf : (sblk_find_pi f n k).1 = true) :
    (sblk_find_pi f n k).2 < n.length ∧ keyAt n (sblk_find_pi f n k).2 = k :=
  (sblk_find_pi_spec hsort hval hk hne).1 hf

theorem sblk_find_pi_not_found {f : DbFlg} {n : Node} {k : Bytes}
    (hsort : (n.map KVPair.key).Pairwise (keyLt f))
    (hval : ∀ p ∈ n, validKey f p.key) (hk : validKey f k) (hne : n ≠ [])
    (hf : (sblk_find_pi f n k).1 = false) :
    (sblk_find_pi f n k).2 ≤ n.length ∧
    (∀ j, j < (sblk_find_pi f n k).2 → keyLt f (keyAt n j) k) ∧
    (∀ j, (sblk_find_pi f n k).2 ≤ j → j < n.length → keyLt f k (keyAt n j)) := by
  have := (sblk_find_pi_spec hsort hval hk hne).2 hf
  exact ⟨this.2.1, this.2.2.1, this.2.2.2⟩

/-- A key that is stored in the node is found by the binary search. -/
theorem sblk_find_pi_of_mem {f : DbFlg} {n : Node} {k : Bytes}
    (hsort : (n.map KVPair.key).Pairwise (keyLt f))
    (hval : ∀ p ∈ n, validKey f p.key) (hk : validKey f k)
    (hmem : k ∈ n.map KVPair.key) :
    (sblk_find_pi f n k).1 = true := by
  have hne : n ≠ [] := by rintro rfl; simp at hmem
  by_contra hf
  have hf' : (sblk_find_pi f n k).1 = false := by
    cases h : (sblk_find_pi f n k).1
    · rfl
    · exact absurd h hf
  obtain ⟨_, hlo, hhi⟩ := sblk_find_pi_not_found hsort hval hk hne hf'
  obtain ⟨j, hj, hjk⟩ := List.mem_iff_getElem.mp hmem
  have hjlen : j < n.length := by simpa using hj
  have hkj : keyAt n j = k := by
    rw [keyAt_eq hjlen]
    simpa using hjk
  rcases Nat.lt_or_ge j (sblk_find_pi f n k).2 with hcase | hcase
  · exact keyLt_irrefl f k (hkj ▸ hlo j hcase)
  · exact keyLt_irrefl f k (hkj ▸ hhi j hcase hjlen)

/-- If a key is absent from the node the binary search reports not-found. -/
theorem sblk_find_pi_not_mem {f : DbFlg} {n : Node} {k : Bytes}
    (hsort : (n.map KVPair.key).Pairwise (keyLt f))
    (hval : ∀ p ∈ n, validKey f p.key) (hk : validKey f k) (hne : n ≠ [])
    (hf : (sblk_find_pi f n k).1 = true) :
    k ∈ n.map KVPair.key := by
  obtain ⟨hlt, hkeq⟩ := sblk_find_pi_found hsort hval hk hne hf
  rw [keyAt_eq hlt] at hkeq
  rw [← hkeq]
  exact List.mem_map_of_mem _ (n.get_mem _ _)

/-- The binary-search loop lands exactly on the bracketed insertion point. -/
theorem findPiLoop_insert_at {f : DbFlg} {ps : List KVPair} {k : Bytes} {m : Nat}
    (hsort : (ps.map KVPair.key).Pairwise (keyLt f))
    (hval : ∀ p ∈ ps, validKey f p.key) (hk : validKey f k)
    (hm : m ≤ ps.length) (hne : ps ≠ [])
    (hlo : ∀ j, j < m → keyLt f (keyAt ps j) k)
    (hhi : ∀ j, m ≤ j → j < ps.length → keyLt f k (keyAt ps j)) :
    findPiLoop f ps k ps.length 0 ps.length = (false, m) := by
  have hlen : 0 < ps.length := List.length_pos.mpr hne
  have hspec := findPiLoop_spec hsort hval hk ps.length 0 ps.length hlen le_rfl (by omega)
    (by intro j hj; omega) (by intro j hj hjl; omega)
  set r := findPiLoop f ps k ps.length 0 ps.length with hr
  obtain ⟨ht, hfa⟩ := hspec
  cases hcase : r.1 with
  | true =>
    obtain ⟨hrlen, hrkey⟩ := ht hcase
    rcases Nat.lt_or_ge r.2 m with hlt2 | hge2
    · exact absurd (hrkey ▸ hlo r.2 hlt2) (keyLt_irrefl f k)
    · exact absurd (hrkey ▸ hhi r.2 hge2 hrlen) (keyLt_irrefl f k)
  | false =>
    obtain ⟨_, hub, hlo', hhi'⟩ := hfa hcase
    have hvm : m = r.2 := by
      rcases Nat.lt_trichotomy r.2 m with hlt2 | heq | hgt2
      · have h1 := hlo r.2 hlt2
        have h2 := hhi' r.2 le_rfl (by omega)
        exact (keyLt_asymm hk (validKey_keyAt hval (by omega)) h2 h1).elim
      · omega
      · have h1 := hlo' m hgt2
        have h2 := hhi m le_rfl (by omega)
        exact (keyLt_asymm hk (validKey_keyAt hval (by omega)) h2 h1).elim
    have : r = (r.1, r.2) := rfl
    rw [this, hcase, hvm]

/-- `List.insertIdx` as take/cons/drop surgery. -/
theorem insertIdx_eq_take_cons_drop {α : Type} (l : List α) (n : Nat) (a : α)
    (h : n ≤ l.length) : l.insertIdx n a = l.take n ++ a :: l.drop n := by
  induction l generalizing n with
  | nil =>
    have : n = 0 := by simpa using h
    simp [this]
  | cons x xs ih =>
    cases n with
    | zero => simp
    | succ m =>
      simp only [List.insertIdx_succ_cons, List.take_succ_cons, List.drop_succ_cons,
        List.cons_append]
      rw [ih m (by simpa using h)]

/-- `_sblk_insert_pi_mm` inserts exactly at the bracketed position. -/
theorem sblk_insert_pi_at {f : DbFlg} {ps : List KVPair} {k v : Bytes} {m : Nat}
    (hsort : (ps.map KVPair.key).Pairwise (keyLt f))
    (hval : ∀ p ∈ ps, validKey f p.key) (hk : validKey f k)
    (hm : m ≤ ps.length)
    (hlo : ∀ j, j < m → keyLt f (keyAt ps j) k)
    (hhi : ∀ j, m ≤ j → j < ps.length → keyLt f k (keyAt ps j)) :
    sblk_insert_pi f ps ⟨k, v⟩ = ps.take m ++ ⟨k, v⟩ :: ps.drop m := by
  unfold sblk_insert_pi
  by_cases hne : ps = []
  · subst hne
    have : m = 0 := by simpa using hm
    simp [this]
  · have hlen : 0 < ps.length := List.length_pos.mpr hne
    rw [if_neg (by omega)]
    rw [findPiLoop_insert_at hsort hval hk hm hne hlo hhi]
    simp only [Bool.false_eq_true, if_false]
    exact insertIdx_eq_take_cons_drop ps m _ hm

/-! ### Descent specification -/

theorem dbPairs_cons (n : Node) (rest : List Node) :
    dbPairs (n :: rest) = n ++ dbPairs rest := by
  simp [dbPairs]

theorem dbKeys_cons (n : Node) (rest : List Node) :
    dbKeys (n :: rest) = n.map KVPair.key ++ dbKeys rest := by
  simp [dbKeys, dbPairs]

theorem wfDb_tail {f : DbFlg} {n : Node} {rest : List Node}
    (h : wfDb f (n :: rest)) : wfDb f rest := by
  obtain ⟨h1, h2, h3⟩ := h
  refine ⟨fun m hm => h1 m (by simp [hm]), fun K hK => h2 K ?_, ?_⟩
  · rw [dbKeys_cons]
    exact List.mem_append_right _ hK
  · rw [dbKeys_cons] at h3
    exact (List.pairwise_append.mp h3).2.1

theorem wfDb_head_cross {f : DbFlg} {n : Node} {rest : List Node}
    (h : wfDb f (n :: rest)) :
    ∀ a ∈ n.map KVPair.key, ∀ b ∈ dbKeys rest, keyLt f a b := by
  have h3 := h.2.2
  rw [dbKeys_cons] at h3
  exact (List.pairwise_append.mp h3).2.2

theorem nodeMinKey_mem {n : Node} (hne : n ≠ []) :
    nodeMinKey n ∈ n.map KVPair.key := by
  cases n with
  | nil => exact absurd rfl hne
  | cons p ps => simp [nodeMinKey]

theorem getD_mem {s : List Node} {i : Nat} (h : i < s.length) :
    s.getD i [] ∈ s := by
  rw [List.getD_eq_getElem?_getD, List.getElem?_eq_getElem h]
  exact List.getElem_mem h

theorem mem_dbKeys_of_mem_node {s : List Node} {n : Node} {K : Bytes}
    (hn : n ∈ s) (hK : K ∈ n.map KVPair.key) : K ∈ dbKeys s := by
  simp only [dbKeys, dbPairs, List.mem_map] at hK ⊢
  obtain ⟨p, hp, hpk⟩ := hK
  exact ⟨p, List.mem_flatten.mpr ⟨n, hn, hp⟩, hpk⟩

theorem validKey_nodeMinKey {f : DbFlg} {s : List Node} {i : Nat}
    (hwf : wfDb f s) (h : i < s.length) :
    validKey f (nodeMinKey (s.getD i [])) := by
  have hne : s.getD i [] ≠ [] := (hwf.1 _ (getD_mem h)).1
  exact hwf.2.1 _ (mem_dbKeys_of_mem_node (getD_mem h) (nodeMinKey_mem hne))

/-- A key kept below the database header (`findLowerIdx = none`, i.e. the
first node's lower key already compares above the search key) is above every
stored key in the skip-list order. -/
theorem findLower_none_bounds {f : DbFlg} {k : Bytes} :
    ∀ {s : List Node}, wfDb f s → validKey f k →
      findLowerIdx f k s = none → ∀ K ∈ dbKeys s, keyLt f k K := by
  intro s hwf hk hnone K hK
  cases s with
  | nil => simp [dbKeys, dbPairs] at hK
  | cons n rest =>
    have hcmp : 0 < cmp_key f (nodeMinKey n) k := by
      by_contra hc
      simp [findLowerIdx, if_neg hc] at hnone
    have hne : n ≠ [] := (hwf.1 n (by simp)).1
    have hmin_mem : nodeMinKey n ∈ dbKeys (n :: rest) :=
      mem_dbKeys_of_mem_node (by simp) (nodeMinKey_mem hne)
    have hvmin : validKey f (nodeMinKey n) := hwf.2.1 _ hmin_mem
    have hkmin : keyLt f k (nodeMinKey n) := (keyLt_of_cmp_pos hvmin hk).mp hcmp
    rcases List.mem_append.mp (dbKeys_cons n rest ▸ hK) with hKn | hKr
    · cases n with
      | nil => exact absurd rfl hne
      | cons p ps =>
        rcases List.mem_cons.mp hKn with hKp | hKps
        · rw [hKp]
          exact hkmin
        · have hsorted := hwf.2.2
          rw [dbKeys_cons] at hsorted
          have hhead : keyLt f (nodeMinKey (p :: ps)) K := by
            have := List.pairwise_append.mp hsorted |>.1
            simp only [List.map_cons, List.pairwise_cons] at this
            exact this.1 K hKps
          exact keyLt_trans hk hvmin (hwf.2.1 K hK) hkmin hhead
    · have hhead : keyLt f (nodeMinKey n) K :=
        wfDb_head_cross hwf _ (nodeMinKey_mem hne) K hKr
      exact keyLt_trans hk hvmin (hwf.2.1 K hK) hkmin hhead

/-- The node `_lx_find_bounds` pins as `lower` brackets the search key: all
keys in earlier nodes are below it, its own lower key is not above it, and
all keys in later nodes are above it. -/
theorem findLower_some_bounds {f : DbFlg} {k : Bytes} :
    ∀ {s : List Node} {i : Nat}, wfDb f s → validKey f k →
      findLowerIdx f k s = some i →
        i < s.length ∧
        (∀ K ∈ dbKeys (s.take i), keyLt f K k) ∧
        ¬ 0 < cmp_key f (nodeMinKey (s.getD i [])) k ∧
        (∀ K ∈ dbKeys (s.drop (i + 1)), keyLt f k K) := by
  intro s
  induction s with
  | nil => intro i _ _ h; simp [findLowerIdx] at h
  | cons n rest ih =>
    intro i hwf hk hsome
    have hcmp : ¬ 0 < cmp_key f (nodeMinKey n) k := by
      by_contra hc
      simp [findLowerIdx, if_pos hc] at hsome
    rw [findLowerIdx, if_neg hcmp] at hsome
    have hwf' := wfDb_tail hwf
    cases hrest : findLowerIdx f k rest with
    | none =>
      rw [hrest] at hsome
      simp only [Option.some.injEq] at hsome
      subst hsome
      refine ⟨by simp, by simp [dbKeys, dbPairs], hcmp, ?_⟩
      intro K hK
      exact findLower_none_bounds hwf' hk hrest K (by simpa using hK)
    | some i' =>
      rw [hrest] at hsome
      simp only [Option.some.injEq] at hsome
      subst hsome
      obtain ⟨hlen, hpre, hmid, hsuf⟩ := ih hwf' hk hrest
      have hMne : rest.getD i' [] ≠ [] := (hwf'.1 _ (getD_mem hlen)).1
      set M := nodeMinKey (rest.getD i' []) with hMdef
      have hvM : validKey f M := validKey_nodeMinKey hwf' hlen
      have hMmem : M ∈ dbKeys rest :=
        mem_dbKeys_of_mem_node (getD_mem hlen) (nodeMinKey_mem hMne)
      refine ⟨by simpa using Nat.succ_lt_succ hlen, ?_,
        by simpa [hMdef, List.getD_eq_getElem?_getD] using hmid, ?_⟩
      · intro K hK
        rw [List.take_succ_cons, dbKeys_cons] at hK
        rcases List.mem_append.mp hK with hKn | hKr
        · -- keys of the head node lie below the lower key of node i' of rest
          have hKM : keyLt f K M := by
            apply wfDb_head_cross hwf _ hKn M hMmem
          have hvK : validKey f K :=
            hwf.2.1 K (by rw [dbKeys_cons]; exact List.mem_append_left _ hKn)
          rcases lt_or_eq_of_le (not_lt.mp hmid) with hMlt | hMeq
          · exact keyLt_trans hvK hvM hk hKM hMlt
          · rw [(cmp_key_eq_iff hvM hk).mp hMeq] at hKM
            exact hKM
        · have : K ∈ dbKeys (rest.take i') := hKr
          exact hpre K this
      · intro K hK
        exact hsuf K (by simpa using hK)

/-! ### Decomposition of the pair list around the located position -/

theorem drop_eq_getD_cons {s : List Node} {i : Nat} (h : i < s.length) :
    s.drop i = s.getD i [] :: s.drop (i + 1) := by
  rw [List.getD_eq_getElem?_getD, List.getElem?_eq_getElem h]
  exact List.drop_eq_getElem_cons h

theorem dbPairs_split {s : List Node} {i : Nat} (h : i < s.length) :
    dbPairs s = dbPairs (s.take i) ++ (s.getD i [] ++ dbPairs (s.drop (i + 1))) := by
  conv_lhs => rw [← List.take_append_drop i s]
  rw [drop_eq_getD_cons h]
  simp [dbPairs]

theorem dbPairs_set {s : List Node} {i : Nat} (h : i < s.length) (n' : Node) :
    dbPairs (s.set i n') = dbPairs (s.take i) ++ (n' ++ dbPairs (s.drop (i + 1))) := by
  rw [List.set_eq_take_cons_drop n' h]
  simp [dbPairs]

theorem dbPairs_insertIdx {s : List Node} {j : Nat} (h : j ≤ s.length) (nb : Node) :
    dbPairs (s.insertIdx j nb) = dbPairs (s.take j) ++ (nb ++ dbPairs (s.drop j)) := by
  rw [insertIdx_eq_take_cons_drop s j nb h]
  simp [dbPairs]

theorem dbPairs_eraseIdx {s : List Node} {i : Nat} (_ : i < s.length) :
    dbPairs (s.eraseIdx i) = dbPairs (s.take i) ++ dbPairs (s.drop (i + 1)) := by
  rw [List.eraseIdx_eq_take_drop_succ]
  simp [dbPairs]

theorem wf_at {f : DbFlg} {s : List Node} {i : Nat} (hwf : wfDb f s)
    (h : i < s.length) :
    s.getD i [] ≠ [] ∧ (s.getD i []).length ≤ KVBLK_IDXNUM ∧
    (∀ p ∈ s.getD i [], validKey f p.key) ∧
    ((s.getD i []).map KVPair.key).Pairwise (keyLt f) := by
  have hmem := getD_mem h
  refine ⟨(hwf.1 _ hmem).1, (hwf.1 _ hmem).2, ?_, ?_⟩
  · intro p hp
    exact hwf.2.1 _ (mem_dbKeys_of_mem_node hmem (List.mem_map_of_mem _ hp))
  · have hsorted := hwf.2.2
    unfold dbKeys at hsorted
    rw [dbPairs_split h] at hsorted
    rw [List.map_append, List.map_append] at hsorted
    exact ((List.pairwise_append.mp hsorted).2.1 |> List.pairwise_append.mp).1

theorem mem_take_key {n : Node} {m : Nat} {p : KVPair} (hp : p ∈ n.take m) :
    ∃ j, j < m ∧ j < n.length ∧ keyAt n j = p.key := by
  obtain ⟨j, hj, hjp⟩ := List.mem_iff_getElem.mp hp
  have hjlen : j < n.length := lt_of_lt_of_le hj (by simp [List.length_take])
  have hjm : j < m := lt_of_lt_of_le hj (by simp [List.length_take])
  refine ⟨j, hjm, hjlen, ?_⟩
  rw [keyAt_eq hjlen]
  rw [List.getElem_take] at hjp
  simp [hjp]

theorem mem_drop_key {n : Node} {m : Nat} {p : KVPair} (hp : p ∈ n.drop m) :
    ∃ j, m ≤ j ∧ j < n.length ∧ keyAt n j = p.key := by
  obtain ⟨j, hj, hjp⟩ := List.mem_iff_getElem.mp hp
  have hjlen : m + j < n.length := by
    have := hj
    simp only [List.length_drop] at this
    omega
  refine ⟨m + j, by omega, hjlen, ?_⟩
  rw [keyAt_eq hjlen]
  rw [List.getElem_drop] at hjp
  simp [hjp]

/-- After a miss, every pair strictly before the located position (earlier
nodes plus the first `idx` pairs of `lower`) is below the search key, and
every pair from the position on is above it. -/
theorem located_not_found {f : DbFlg} {k : Bytes} {s : List Node} {i : Nat}
    (hwf : wfDb f s) (hk : validKey f k)
    (hfl : findLowerIdx f k s = some i)
    (hnf : (sblk_find_pi f (s.getD i []) k).1 = false) :
    (sblk_find_pi f (s.getD i []) k).2 ≤ (s.getD i []).length ∧
    (∀ p ∈ dbPairs (s.take i) ++ (s.getD i []).take (sblk_find_pi f (s.getD i []) k).2,
        keyLt f p.key k) ∧
    (∀ p ∈ (s.getD i []).drop (sblk_find_pi f (s.getD i []) k).2 ++ dbPairs (s.drop (i + 1)),
        keyLt f k p.key) := by
  obtain ⟨hlen, hpre, _, hsuf⟩ := findLower_some_bounds hwf hk hfl
  obtain ⟨hne, _, hval, hsort⟩ := wf_at hwf hlen
  obtain ⟨hm, hlo, hhi⟩ := sblk_find_pi_not_found hsort hval hk hne hnf
  refine ⟨hm, ?_, ?_⟩
  · intro p hp
    rcases List.mem_append.mp hp with hp1 | hp2
    · exact hpre p.key (List.mem_map_of_mem _ hp1)
    · obtain ⟨j, hjm, hjlen, hjk⟩ := mem_take_key hp2
      exact hjk ▸ hlo j hjm
  · intro p hp
    rcases List.mem_append.mp hp with hp1 | hp2
    · obtain ⟨j, hjm, hjlen, hjk⟩ := mem_drop_key hp1
      exact hjk ▸ hhi j hjm hjlen
    · exact hsuf p.key (List.mem_map_of_mem _ hp2)

/-- A miss really means the key is not stored anywhere. -/
theorem not_mem_of_not_found {f : DbFlg} {k : Bytes} {s : List Node} {i : Nat}
    (hwf : wfDb f s) (hk : validKey f k)
    (hfl : findLowerIdx f k s = some i)
    (hnf : (sblk_find_pi f (s.getD i []) k).1 = false) :
    k ∉ dbKeys s := by
  obtain ⟨hlen, _, _, _⟩ := findLower_some_bounds hwf hk hfl
  obtain ⟨hm, hlo, hhi⟩ := located_not_found hwf hk hfl hnf
  intro hmem
  unfold dbKeys at hmem
  rw [dbPairs_split hlen] at hmem
  obtain ⟨p, hp, hpk⟩ := List.mem_map.mp hmem
  have hsplit : p ∈ (dbPairs (s.take i) ++ (s.getD i []).take (sblk_find_pi f (s.getD i []) k).2)
      ∨ p ∈ ((s.getD i []).drop (sblk_find_pi f (s.getD i []) k).2 ++ dbPairs (s.drop (i + 1))) := by
    rcases List.mem_append.mp hp with h1 | h2
    · exact Or.inl (List.mem_append_left _ h1)
    · rcases List.mem_append.mp h2 with h3 | h4
      · rcases List.mem_append.mp ((List.take_append_drop (sblk_find_pi f (s.getD i []) k).2
          (s.getD i [])).symm ▸ h3) with h5 | h6
        · exact Or.inl (List.mem_append_right _ h5)
        · exact Or.inr (List.mem_append_left _ h6)
      · exact Or.inr (List.mem_append_right _ h4)
  rcases hsplit with h | h
  · exact keyLt_irrefl f k (hpk ▸ hlo p h)
  · exact keyLt_irrefl f k (hpk ▸ hhi p h)

/-- A hit pins the cursor on a pair whose key is (byte for byte) the search
key. -/
theorem located_found {f : DbFlg} {k : Bytes} {s : List Node} {i : Nat}
    (hwf : wfDb f s) (hk : validKey f k)
    (hfl : findLowerIdx f k s = some i)
    (hf : (sblk_find_pi f (s.getD i []) k).1 = true) :
    (sblk_find_pi f (s.getD i []) k).2 < (s.getD i []).length ∧
    keyAt (s.getD i []) (sblk_find_pi f (s.getD i []) k).2 = k := by
  obtain ⟨hlen, _, _, _⟩ := findLower_some_bounds hwf hk hfl
  obtain ⟨hne, _, hval, hsort⟩ := wf_at hwf hlen
  exact sblk_find_pi_found hsort hval hk hne hf

theorem dbPairs_take_succ {s : List Node} {i : Nat} (h : i < s.length) :
    dbPairs (s.take (i + 1)) = dbPairs (s.take i) ++ s.getD i [] := by
  have : s.take (i + 1) = s.take i ++ [s.getD i []] := by
    rw [List.getD_eq_getElem?_getD, List.getElem?_eq_getElem h]
    simpa using (List.take_succ (l := s) (n := i)).trans (by
      rw [List.getElem?_eq_getElem h]; rfl)
  rw [this]
  simp [dbPairs]

theorem dbPairs_drop_succ {s : List Node} {i : Nat} (h : i < s.length) :
    dbPairs (s.drop i) = s.getD i [] ++ dbPairs (s.drop (i + 1)) := by
  rw [drop_eq_getD_cons h]
  simp [dbPairs]

/-- The node-list surgery `_lx_split_addkv` performs: replace node `i` by
`low` and link `nb` directly after it. -/
theorem dbPairs_set_insert {s : List Node} {i : Nat} (h : i < s.length)
    (low nb : Node) :
    dbPairs ((s.set i low).insertIdx (i + 1) nb) =
      dbPairs (s.take i) ++ (low ++ (nb ++ dbPairs (s.drop (i + 1)))) := by
  have hlenset : (s.set i low).length = s.length := by simp
  have hle : i + 1 ≤ (s.set i low).length := by omega
  rw [insertIdx_eq_take_cons_drop _ _ _ hle]
  have htake : (s.set i low).take (i + 1) = s.take i ++ [low] := by
    rw [List.set_eq_take_cons_drop low h]
    rw [List.take_append_eq_append_take]
    have h1 : (s.take i).length = i := by simp [List.length_take]; omega
    rw [List.take_of_length_le (by omega)]
    rw [h1]
    simp
  have hdrop : (s.set i low).drop (i + 1) = s.drop (i + 1) := by
    rw [List.set_eq_take_cons_drop low h]
    rw [List.drop_append_eq_append_drop]
    have h1 : (s.take i).length = i := by simp [List.length_take]; omega
    rw [List.drop_of_length_le (by omega), h1]
    simp
  rw [htake, hdrop]
  simp [dbPairs]

theorem keyAt_take {n : Node} {t j : Nat} (hj : j < t) (hjl : j < n.length) :
    keyAt (n.take t) j = keyAt n j := by
  have hlt : j < (n.take t).length := by simp [List.length_take]; omega
  rw [keyAt_eq hlt, keyAt_eq hjl]
  congr 1
  simp [List.getElem_take]

theorem keyAt_drop {n : Node} {t j : Nat} (hjl : t + j < n.length) :
    keyAt (n.drop t) j = keyAt n (t + j) := by
  have hlt : j < (n.drop t).length := by simp [List.length_drop]; omega
  rw [keyAt_eq hlt, keyAt_eq hjl]
  congr 1
  simp [List.getElem_drop]

theorem pairwise_insert_middle {α : Type} {R : α → α → Prop} {xs ys : List α}
    {a : α} (h : (xs ++ ys).Pairwise R)
    (hx : ∀ x ∈ xs, R x a) (hy : ∀ y ∈ ys, R a y) :
    (xs ++ a :: ys).Pairwise R := by
  rw [List.pairwise_append] at h ⊢
  obtain ⟨h1, h2, h3⟩ := h
  refine ⟨h1, ?_, ?_⟩
  · rw [List.pairwise_cons]
    exact ⟨hy, h2⟩
  · intro x hxs b hb
    rcases List.mem_cons.mp hb with rfl | hbys
    · exact hx x hxs
    · exact h3 x hxs b hbys

/-- Reassembling well-formedness after inserting the new pair between the
bracketing halves of the pair list. -/
theorem wfDb_of_pairs_insert {f : DbFlg} {s s' : List Node} {k v : Bytes}
    {pre post : List KVPair}
    (hwf : wfDb f s) (hk : validKey f k)
    (hold : dbPairs s = pre ++ post)
    (hnew : dbPairs s' = pre ++ ⟨k, v⟩ :: post)
    (hpre : ∀ p ∈ pre, keyLt f p.key k) (hpost : ∀ p ∈ post, keyLt f k p.key)
    (hnodes : ∀ n ∈ s', n ≠ [] ∧ n.length ≤ KVBLK_IDXNUM) :
    wfDb f s' ∧ ⟨k, v⟩ ∈ dbPairs s' := by
  refine ⟨⟨hnodes, ?_, ?_⟩, by rw [hnew]; simp⟩
  · intro K hK
    unfold dbKeys at hK
    rw [hnew, List.map_append, List.map_cons] at hK
    rcases List.mem_append.mp hK with h1 | h2
    · refine hwf.2.1 K ?_
      unfold dbKeys
      rw [hold, List.map_append]
      exact List.mem_append_left _ h1
    · rcases List.mem_cons.mp h2 with rfl | h3
      · exact hk
      · refine hwf.2.1 K ?_
        unfold dbKeys
        rw [hold, List.map_append]
        exact List.mem_append_right _ h3
  · unfold dbKeys
    rw [hnew, List.map_append, List.map_cons]
    have hsorted := hwf.2.2
    unfold dbKeys at hsorted
    rw [hold, List.map_append] at hsorted
    refine pairwise_insert_middle hsorted ?_ ?_
    · intro x hx
      obtain ⟨p, hp, hpk⟩ := List.mem_map.mp hx
      exact hpk ▸ hpre p hp
    · intro y hy
      obtain ⟨p, hp, hpk⟩ := List.mem_map.mp hy
      exact hpk ▸ hpost p hp

/-! ### `get` against the abstract contents -/

theorem dbKeys_nodup {f : DbFlg} {s : List Node} (hwf : wfDb f s) :
    (dbKeys s).Nodup :=
  List.Pairwise.imp (fun h => keyLt_ne h) hwf.2.2

theorem dbPairs_key_inj {f : DbFlg} {s : List Node} (hwf : wfDb f s)
    {p q : KVPair} (hp : p ∈ dbPairs s) (hq : q ∈ dbPairs s)
    (hkey : p.key = q.key) : p = q :=
  List.inj_on_of_nodup_map (l := dbPairs s) (f := KVPair.key)
    (dbKeys_nodup hwf) hp hq hkey

theorem mem_dbPairs_getD {s : List Node} {i j : Nat} (hi : i < s.length)
    (hj : j < (s.getD i []).length) :
    (s.getD i []).get ⟨j, hj⟩ ∈ dbPairs s := by
  unfold dbPairs
  exact List.mem_flatten.mpr ⟨s.getD i [], getD_mem hi, (s.getD i []).get_mem j hj⟩

/-- `iwkv_get` returns the stored value: if `⟨k, v⟩` is among the database
pairs then `_lx_get_lr` produces `v`. -/
theorem lx_get_of_mem {f : DbFlg} {s : List Node} {k v : Bytes}
    (hwf : wfDb f s) (hk : validKey f k)
    (hmem : (⟨k, v⟩ : KVPair) ∈ dbPairs s) :
    lx_get f s k = some v := by
  have hkmem : k ∈ dbKeys s := by
    unfold dbKeys
    exact List.mem_map.mpr ⟨⟨k, v⟩, hmem, rfl⟩
  cases hfl : findLowerIdx f k s with
  | none =>
    exact absurd (findLower_none_bounds hwf hk hfl k hkmem) (keyLt_irrefl f k)
  | some i =>
    obtain ⟨hlen, _, _, _⟩ := findLower_some_bounds hwf hk hfl
    cases hf : (sblk_find_pi f (s.getD i []) k).1 with
    | false => exact absurd hkmem (not_mem_of_not_found hwf hk hfl hf)
    | true =>
      obtain ⟨hm, hkeq⟩ := located_found hwf hk hfl hf
      have hpair := mem_dbPairs_getD hlen hm
      have hkeyp : ((s.getD i []).get ⟨(sblk_find_pi f (s.getD i []) k).2, hm⟩).key = k := by
        rw [keyAt_eq hm] at hkeq
        exact hkeq
      have heqp : (s.getD i []).get ⟨(sblk_find_pi f (s.getD i []) k).2, hm⟩ = ⟨k, v⟩ :=
        dbPairs_key_inj hwf hpair hmem hkeyp
      unfold lx_get
      rw [hfl]
      simp only [hf, if_true]
      rw [List.getElem?_eq_getElem hm]
      simp only [Option.some.injEq]
      have := congrArg KVPair.val heqp
      simpa using this

/-- `iwkv_get` misses exactly when the key is not stored. -/
theorem lx_get_of_not_mem {f : DbFlg} {s : List Node} {k : Bytes}
    (hwf : wfDb f s) (hk : validKey f k) (hnm : k ∉ dbKeys s) :
    lx_get f s k = none := by
  cases hfl : findLowerIdx f k s with
  | none => unfold lx_get; rw [hfl]
  | some i =>
    obtain ⟨hlen, _, _, _⟩ := findLower_some_bounds hwf hk hfl
    obtain ⟨hne, _, hval, hsort⟩ := wf_at hwf hlen
    cases hf : (sblk_find_pi f (s.getD i []) k).1 with
    | true =>
      have := sblk_find_pi_not_mem hsort hval hk hne hf
      exact absurd (mem_dbKeys_of_mem_node (getD_mem hlen) this) hnm
    | false =>
      unfold lx_get
      rw [hfl]
      have hf' : (sblk_find_pi f (s[i]?.getD []) k).1 = false := by
        rw [← List.getD_eq_getElem?_getD]
        exact hf
      simp [hf']

/-! ### `put` against the abstract contents -/

/-- `NO_OVERWRITE` put on a present key: `IWKV_ERROR_KEY_EXISTS`, nothing
touched. -/
theorem lx_put_keyExists {f : DbFlg} {s : List Node} {k v : Bytes}
    (hwf : wfDb f s) (hk : validKey f k) (hmem : k ∈ dbKeys s) :
    lx_put f s k v true = (.keyExists, s) := by
  cases hfl : findLowerIdx f k s with
  | none =>
    exact absurd (findLower_none_bounds hwf hk hfl k hmem) (keyLt_irrefl f k)
  | some i =>
    obtain ⟨hlen, _, _, _⟩ := findLower_some_bounds hwf hk hfl
    cases hf : (sblk_find_pi f (s.getD i []) k).1 with
    | false => exact absurd hmem (not_mem_of_not_found hwf hk hfl hf)
    | true =>
      unfold lx_put
      rw [hfl]
      simp only [hf, if_true]

theorem getElem_mem_dbPairs {s : List Node} {i j : Nat} (hi : i < s.length)
    (hj : j < (s.getD i []).length) :
    (s.getD i [])[j] ∈ dbPairs s := by
  unfold dbPairs
  exact List.mem_flatten.mpr ⟨s.getD i [], getD_mem hi, List.getElem_mem hj⟩

theorem keyAt_eq_getElem {ps : List KVPair} {i : Nat} (h : i < ps.length) :
    keyAt ps i = ps[i].key := keyAt_eq h

/-- Plain put on a present key: the unique pair carrying that key gets its
value replaced in place, and nothing else changes. -/
theorem lx_put_update {f : DbFlg} {s : List Node} {k v : Bytes}
    (hwf : wfDb f s) (hk : validKey f k) (hmem : k ∈ dbKeys s) :
    (lx_put f s k v false).1 = .ok ∧
    (∃ pre post w,
      dbPairs s = pre ++ ⟨k, w⟩ :: post ∧
      dbPairs (lx_put f s k v false).2 = pre ++ ⟨k, v⟩ :: post) ∧
    dbKeys (lx_put f s k v false).2 = dbKeys s ∧
    wfDb f (lx_put f s k v false).2 := by
  cases hfl : findLowerIdx f k s with
  | none =>
    exact absurd (findLower_none_bounds hwf hk hfl k hmem) (keyLt_irrefl f k)
  | some i =>
    obtain ⟨hlen, _, _, _⟩ := findLower_some_bounds hwf hk hfl
    cases hf : (sblk_find_pi f (s.getD i []) k).1 with
    | false => exact absurd hmem (not_mem_of_not_found hwf hk hfl hf)
    | true =>
      obtain ⟨hm, hkeq⟩ := located_found hwf hk hfl hf
      set n := s.getD i [] with hn
      set m := (sblk_find_pi f n k).2 with hmdef
      have hkeyp : n[m].key = k := by
        rw [keyAt_eq_getElem hm] at hkeq
        exact hkeq
      have hget : n[m]? = some n[m] := List.getElem?_eq_getElem hm
      have hupd : sblk_updatekv n m k v = some (n.set m ⟨k, v⟩) := by
        unfold sblk_updatekv
        rw [hget]
        show (if n[m].key = k then some (List.set n m ⟨n[m].key, v⟩) else none) = _
        rw [if_pos hkeyp, hkeyp]
      have hbody : lx_put f s k v false = (.ok, s.set i (n.set m ⟨k, v⟩)) := by
        unfold lx_put
        rw [hfl]
        simp only [hf, if_true, Bool.true_and, if_false, hupd, ← hn, ← hmdef]
        rfl
      rw [hbody]
      have hnset : n.set m ⟨k, v⟩ = n.take m ++ ⟨k, v⟩ :: n.drop (m + 1) :=
        List.set_eq_take_cons_drop _ hm
      have hpairs_new :
          dbPairs (s.set i (n.set m ⟨k, v⟩)) =
            (dbPairs (s.take i) ++ n.take m) ++ ⟨k, v⟩ ::
              (n.drop (m + 1) ++ dbPairs (s.drop (i + 1))) := by
        rw [dbPairs_set hlen, hnset]
        simp
      have hpairs_old :
          dbPairs s =
            (dbPairs (s.take i) ++ n.take m) ++ n[m] ::
              (n.drop (m + 1) ++ dbPairs (s.drop (i + 1))) := by
        rw [dbPairs_split hlen, ← hn]
        have hdec : n = n.take m ++ n[m] :: n.drop (m + 1) := by
          conv_lhs => rw [← List.take_append_drop m n]
          congr 1
          exact List.drop_eq_getElem_cons hm
        conv_lhs => rw [hdec]
        simp only [List.append_assoc, List.cons_append]
      have hpair_eta : n[m] = (⟨k, n[m].val⟩ : KVPair) := by
        cases hp : n[m] with
        | mk pk pv =>
          have hpk : pk = k := by rw [← hkeyp, hp]
          rw [hpk]
      have hkeys_eq : dbKeys (s.set i (n.set m ⟨k, v⟩)) = dbKeys s := by
        unfold dbKeys
        rw [hpairs_new, hpairs_old]
        conv_rhs => rw [hpair_eta]
        simp
      refine ⟨rfl, ⟨dbPairs (s.take i) ++ n.take m,
        n.drop (m + 1) ++ dbPairs (s.drop (i + 1)), n[m].val, ?_, hpairs_new⟩,
        hkeys_eq, ?_⟩
      · conv_lhs => rw [hpairs_old]
        conv_lhs => rw [hpair_eta]
      · refine ⟨?_, ?_, ?_⟩
        · intro nd hnd
          rcases List.mem_or_eq_of_mem_set hnd with hndm | rfl
          · exact hwf.1 _ hndm
          · constructor
            · intro hemp
              have hlen0 : n.length = 0 := by
                have := congrArg List.length hemp
                simpa using this
              omega
            · have hsetlen : (n.set m (⟨k, v⟩ : KVPair)).length = n.length := by simp
              rw [hsetlen]
              exact (wf_at hwf hlen).2.1
        · intro K hK
          rw [hkeys_eq] at hK
          exact hwf.2.1 K hK
        · rw [hkeys_eq]
          exact hwf.2.2

/-! ### Placement of `_sblk_addkv` -/

theorem node_take_sorted {f : DbFlg} {n : Node} {t : Nat}
    (hsort : (n.map KVPair.key).Pairwise (keyLt f)) :
    ((n.take t).map KVPair.key).Pairwise (keyLt f) :=
  List.Pairwise.sublist (List.Sublist.map _ (List.take_sublist t n)) hsort

theorem node_drop_sorted {f : DbFlg} {n : Node} {t : Nat}
    (hsort : (n.map KVPair.key).Pairwise (keyLt f)) :
    ((n.drop t).map KVPair.key).Pairwise (keyLt f) :=
  List.Pairwise.sublist (List.Sublist.map _ (List.drop_sublist t n)) hsort

theorem node_take_valid {f : DbFlg} {n : Node} {t : Nat}
    (hval : ∀ p ∈ n, validKey f p.key) : ∀ p ∈ n.take t, validKey f p.key :=
  fun p hp => hval p (List.mem_of_mem_take hp)

theorem node_drop_valid {f : DbFlg} {n : Node} {t : Nat}
    (hval : ∀ p ∈ n, validKey f p.key) : ∀ p ∈ n.drop t, validKey f p.key :=
  fun p hp => hval p (List.mem_of_mem_drop hp)

/-- `_sblk_addkv` inserts exactly at the bracketed position. -/
theorem sblk_addkv_at {f : DbFlg} {ps : List KVPair} {k v : Bytes} {m : Nat}
    (hsort : (ps.map KVPair.key).Pairwise (keyLt f))
    (hval : ∀ p ∈ ps, validKey f p.key) (hk : validKey f k)
    (hcap : ps.length < KVBLK_IDXNUM) (hm : m ≤ ps.length)
    (hlo : ∀ j, j < m → keyLt f (keyAt ps j) k)
    (hhi : ∀ j, m ≤ j → j < ps.length → keyLt f k (keyAt ps j)) :
    sblk_addkv f ps ⟨k, v⟩ = some (ps.take m ++ ⟨k, v⟩ :: ps.drop m) := by
  unfold sblk_addkv
  rw [if_neg (by omega)]
  rw [sblk_insert_pi_at hsort hval hk hm hlo hhi]

/-- `_sblk_addkv` prepends when every stored key is above the new one. -/
theorem sblk_addkv_front {f : DbFlg} {u : Node} {k v : Bytes}
    (hsort : (u.map KVPair.key).Pairwise (keyLt f))
    (hval : ∀ p ∈ u, validKey f p.key) (hk : validKey f k)
    (hcap : u.length < KVBLK_IDXNUM)
    (hhi : ∀ j, j < u.length → keyLt f k (keyAt u j)) :
    sblk_addkv f u ⟨k, v⟩ = some (⟨k, v⟩ :: u) := by
  have := sblk_addkv_at (v := v) (m := 0) hsort hval hk hcap (Nat.zero_le _)
    (by intro j hj; omega) (by intro j _ hjl; exact hhi j hjl)
  simpa using this

/-- Node-level outcome of `_lx_split_addkv`: the concatenation of the split
halves is the full node with the new pair inserted at its position, both
halves are non-empty (the lower half keeps 17 or 18 pairs, the new node gets
15 or 16, or just the new pair) and within capacity. -/
theorem lx_split_spec {f : DbFlg} {n : Node} {k v : Bytes} {m : Nat}
    (hsort : (n.map KVPair.key).Pairwise (keyLt f))
    (hval : ∀ p ∈ n, validKey f p.key) (hk : validKey f k)
    (hn32 : n.length = KVBLK_IDXNUM) (hm : m ≤ n.length)
    (hlo : ∀ j, j < m → keyLt f (keyAt n j) k)
    (hhi : ∀ j, m ≤ j → j < n.length → keyLt f k (keyAt n j)) :
    ∃ nlow nb, lx_split_addkv f n m ⟨k, v⟩ = some (nlow, nb) ∧
      nlow ++ nb = n.take m ++ ⟨k, v⟩ :: n.drop m ∧
      nlow ≠ [] ∧ nb ≠ [] ∧
      nlow.length ≤ KVBLK_IDXNUM ∧ nb.length ≤ KVBLK_IDXNUM := by
  have hKN : KVBLK_IDXNUM = 32 := rfl
  have hpivot : KVBLK_IDXNUM / 2 + 1 = 17 := by norm_num [KVBLK_IDXNUM]
  unfold lx_split_addkv
  by_cases hmlen : m = n.length
  · rw [if_pos hmlen]
    have haddkv : sblk_addkv f [] ⟨k, v⟩ = some [⟨k, v⟩] := rfl
    rw [haddkv]
    refine ⟨n, [⟨k, v⟩], rfl, ?_, ?_, by simp, by omega, by simp [hKN]⟩
    · rw [hmlen, List.take_length, List.drop_length]
    · intro hc
      have := congrArg List.length hc
      simp [hn32, hKN] at this
  · rw [if_neg hmlen]
    rw [hpivot]
    have hmlt : m < n.length := lt_of_le_of_ne hm hmlen
    by_cases h17 : 17 < m
    · rw [if_pos h17]
      have hmovlen : (n.drop 17).length = 15 := by simp [List.length_drop, hn32, hKN]
      have haddkv : sblk_addkv f (n.drop 17) ⟨k, v⟩ =
          some ((n.drop 17).take (m - 17) ++ ⟨k, v⟩ :: (n.drop 17).drop (m - 17)) := by
        refine sblk_addkv_at (node_drop_sorted hsort) (node_drop_valid hval) hk
          (by omega) (by omega) ?_ ?_
        · intro j hj
          rw [keyAt_drop (by omega)]
          exact hlo (17 + j) (by omega)
        · intro j hj hjl
          rw [keyAt_drop (by omega)]
          exact hhi (17 + j) (by omega) (by omega)
      rw [haddkv]
      refine ⟨n.take 17, (n.drop 17).take (m - 17) ++ ⟨k, v⟩ :: (n.drop 17).drop (m - 17),
        rfl, ?_, ?_, by simp, ?_, ?_⟩
      · have h1 : n.take m = n.take 17 ++ (n.drop 17).take (m - 17) := by
          conv_lhs => rw [show m = 17 + (m - 17) by omega]
          rw [List.take_add]
        have h2 : (n.drop 17).drop (m - 17) = n.drop m := by
          rw [List.drop_drop]
          congr 1
          omega
        rw [h1, h2, List.append_assoc]
      · intro hc
        have := congrArg List.length hc
        simp [List.length_take, hn32, hKN] at this
      · simp [List.length_take, hn32, hKN]
      · simp only [List.length_append, List.length_cons, List.length_take, List.length_drop,
          hmovlen]
        omega
    · rw [if_neg h17]
      have htklen : (n.take 17).length = 17 := by simp [List.length_take, hn32, hKN]
      have haddkv : sblk_addkv f (n.take 17) ⟨k, v⟩ =
          some ((n.take 17).take m ++ ⟨k, v⟩ :: (n.take 17).drop m) := by
        refine sblk_addkv_at (node_take_sorted hsort) (node_take_valid hval) hk
          (by omega) (by omega) ?_ ?_
        · intro j hj
          rw [keyAt_take (by omega) (by omega)]
          exact hlo j hj
        · intro j hj hjl
          rw [keyAt_take (by omega) (by omega)]
          exact hhi j hj (by omega)
      rw [haddkv]
      refine ⟨(n.take 17).take m ++ ⟨k, v⟩ :: (n.take 17).drop m, n.drop 17,
        rfl, ?_, by simp, ?_, ?_, ?_⟩
      · have h1 : (n.take 17).take m = n.take m := by
          rw [List.take_take]
          congr 1
          omega
        have h2 : (n.take 17).drop m ++ n.drop 17 = n.drop m := by
          conv_rhs => rw [← List.take_append_drop 17 n]
          rw [List.drop_append_eq_append_drop, htklen]
          congr 1
          have hz : m - 17 = 0 := by omega
          rw [hz, List.drop_zero]
        rw [h1, ← h2]
        simp [List.append_assoc]
      · intro hc
        have := congrArg List.length hc
        simp [hn32, hKN] at this
      · rw [List.length_append, List.length_cons, List.length_take, List.length_drop, htklen]
        have : min m 17 ≤ 17 := min_le_right _ _
        omega
      · simp [List.length_drop, hn32, hKN]

/-- Plain put on an absent key (any `NO_OVERWRITE` setting): the pair is
inserted at its comparator position — into `lower`, the `upper` neighbour, or
via a node split — preserving well-formedness. -/
theorem lx_put_insert {f : DbFlg} {s : List Node} {k v : Bytes} {noOver : Bool}
    (hwf : wfDb f s) (hk : validKey f k) (hnm : k ∉ dbKeys s) :
    (lx_put f s k v noOver).1 = .ok ∧
    ∃ pre post,
      dbPairs s = pre ++ post ∧
      dbPairs (lx_put f s k v noOver).2 = pre ++ ⟨k, v⟩ :: post ∧
      (∀ p ∈ pre, keyLt f p.key k) ∧ (∀ p ∈ post, keyLt f k p.key) ∧
      wfDb f (lx_put f s k v noOver).2 := by
  cases hfl : findLowerIdx f k s with
  | none =>
    have hallK := findLower_none_bounds hwf hk hfl
    have hallp : ∀ p ∈ dbPairs s, keyLt f k p.key := fun p hp =>
      hallK p.key (List.mem_map_of_mem _ hp)
    cases s with
    | nil =>
      have hbody : lx_put f [] k v noOver = (.ok, [[⟨k, v⟩]]) := by
        unfold lx_put
        rw [hfl]
      rw [hbody]
      refine ⟨rfl, [], [], ?_, ?_, ?_, ?_, ?_⟩
      · simp [dbPairs]
      · simp [dbPairs]
      · simp
      · simp
      · exact (@wfDb_of_pairs_insert f [] [[⟨k, v⟩]] k v [] [] hwf hk (by simp [dbPairs])
          (by simp [dbPairs]) (by simp) (by simp)
          (by intro nd hnd; simp at hnd; simp [hnd, KVBLK_IDXNUM])).1
    | cons u rest =>
      have huwf := hwf.1 u (by simp)
      have husort : (u.map KVPair.key).Pairwise (keyLt f) := by
        have h3 := hwf.2.2
        rw [dbKeys_cons] at h3
        exact (List.pairwise_append.mp h3).1
      have huval : ∀ p ∈ u, validKey f p.key := fun p hp =>
        hwf.2.1 _ (mem_dbKeys_of_mem_node (by simp) (List.mem_map_of_mem _ hp))
      by_cases hcap : u.length < KVBLK_IDXNUM
      · have haddkv : sblk_addkv f u ⟨k, v⟩ = some (⟨k, v⟩ :: u) := by
          refine sblk_addkv_front husort huval hk hcap ?_
          intro j hj
          rw [keyAt_eq_getElem hj]
          exact hallK u[j].key (mem_dbKeys_of_mem_node (by simp)
            (List.mem_map_of_mem _ (List.getElem_mem hj)))
        have hbody : lx_put f (u :: rest) k v noOver = (.ok, (⟨k, v⟩ :: u) :: rest) := by
          unfold lx_put
          rw [hfl]
          simp only [if_pos hcap, haddkv]
        rw [hbody]
        refine ⟨rfl, [], dbPairs (u :: rest), ?_, ?_, ?_, hallp, ?_⟩
        · simp
        · rw [dbPairs_cons, dbPairs_cons]
          simp
        · simp
        · refine (@wfDb_of_pairs_insert f (u :: rest) ((⟨k, v⟩ :: u) :: rest) k v
            [] (dbPairs (u :: rest)) hwf hk (by simp)
            (by rw [dbPairs_cons, dbPairs_cons]; simp) (by simp) hallp ?_).1
          intro nd hnd
          rcases List.mem_cons.mp hnd with rfl | hnd2
          · refine ⟨by simp, ?_⟩
            simp only [List.length_cons]
            omega
          · exact hwf.1 _ (by simp [hnd2])
      · have hbody : lx_put f (u :: rest) k v noOver = (.ok, [⟨k, v⟩] :: (u :: rest)) := by
          unfold lx_put
          rw [hfl]
          simp only [if_neg hcap]
        rw [hbody]
        refine ⟨rfl, [], dbPairs (u :: rest), ?_, ?_, ?_, hallp, ?_⟩
        · simp
        · rw [dbPairs_cons]
          simp [dbPairs]
        · simp
        · refine (@wfDb_of_pairs_insert f (u :: rest) ([⟨k, v⟩] :: (u :: rest)) k v
            [] (dbPairs (u :: rest)) hwf hk (by simp)
            (by rw [dbPairs_cons]; simp [dbPairs]) (by simp) hallp ?_).1
          intro nd hnd
          rcases List.mem_cons.mp hnd with rfl | hnd2
          · exact ⟨by simp, by simp [KVBLK_IDXNUM]⟩
          · exact hwf.1 _ hnd2
  | some i =>
    obtain ⟨hlen, hpreK, hmidK, hsufK⟩ := findLower_some_bounds hwf hk hfl
    obtain ⟨hne, hnlen, hnval, hnsort⟩ := wf_at hwf hlen
    have hnf : (sblk_find_pi f (s.getD i []) k).1 = false := by
      cases h : (sblk_find_pi f (s.getD i []) k).1
      · rfl
      · exact absurd (mem_dbKeys_of_mem_node (getD_mem hlen)
          (sblk_find_pi_not_mem hnsort hnval hk hne h)) hnm
    obtain ⟨hm, hloP, hhiP⟩ := located_not_found hwf hk hfl hnf
    obtain ⟨hm', hlo, hhi⟩ := sblk_find_pi_not_found hnsort hnval hk hne hnf
    have hloP' : ∀ p ∈ dbPairs (s.take i) ++ (s.getD i []).take
        (sblk_find_pi f (s.getD i []) k).2, keyLt f p.key k := hloP
    have hhiP' : ∀ p ∈ (s.getD i []).drop (sblk_find_pi f (s.getD i []) k).2 ++
        dbPairs (s.drop (i + 1)), keyLt f k p.key := hhiP
    have hold : dbPairs s =
        (dbPairs (s.take i) ++ (s.getD i []).take (sblk_find_pi f (s.getD i []) k).2) ++
        ((s.getD i []).drop (sblk_find_pi f (s.getD i []) k).2 ++ dbPairs (s.drop (i + 1))) := by
      rw [dbPairs_split hlen]
      conv_lhs =>
        rw [← List.take_append_drop (sblk_find_pi f (s.getD i []) k).2 (s.getD i [])]
      simp only [List.append_assoc]
    by_cases hcap : (s.getD i []).length < KVBLK_IDXNUM
    · have haddkv2 : sblk_addkv2 (s.getD i []) (sblk_find_pi f (s.getD i []) k).2 ⟨k, v⟩ =
          some ((s.getD i []).insertIdx (sblk_find_pi f (s.getD i []) k).2 ⟨k, v⟩) := by
        unfold sblk_addkv2
        rw [if_neg (by omega)]
      have hbody : lx_put f s k v noOver =
          (.ok, s.set i ((s.getD i []).insertIdx (sblk_find_pi f (s.getD i []) k).2 ⟨k, v⟩)) := by
        unfold lx_put
        rw [hfl]
        simp only [hnf, Bool.false_eq_true, if_false, if_pos hcap, haddkv2]
      rw [hbody]
      have hnew : dbPairs (s.set i
          ((s.getD i []).insertIdx (sblk_find_pi f (s.getD i []) k).2 ⟨k, v⟩)) =
          (dbPairs (s.take i) ++ (s.getD i []).take (sblk_find_pi f (s.getD i []) k).2) ++
          ⟨k, v⟩ :: ((s.getD i []).drop (sblk_find_pi f (s.getD i []) k).2 ++
            dbPairs (s.drop (i + 1))) := by
        rw [dbPairs_set hlen, insertIdx_eq_take_cons_drop _ _ _ hm]
        simp only [List.append_assoc, List.cons_append]
      refine ⟨rfl, _, _, hold, hnew, hloP', hhiP', ?_⟩
      refine (wfDb_of_pairs_insert hwf hk hold hnew hloP' hhiP' ?_).1
      intro nd hnd
      rcases List.mem_or_eq_of_mem_set hnd with h | rfl
      · exact hwf.1 _ h
      · constructor
        · intro hc
          have := congrArg List.length hc
          rw [List.length_insertIdx _ _ hm] at this
          simp at this
        · rw [List.length_insertIdx _ _ hm]
          omega
    · have hn32 : (s.getD i []).length = KVBLK_IDXNUM := le_antisymm hnlen (not_lt.mp hcap)
      obtain ⟨nlow, nb, hsplit_eq, hcat, hlne, hbne, hll, hbl⟩ :=
        lx_split_spec (v := v) hnsort hnval hk hn32 hm' hlo hhi
      have hnew_split : dbPairs ((s.set i nlow).insertIdx (i + 1) nb) =
          (dbPairs (s.take i) ++ (s.getD i []).take (sblk_find_pi f (s.getD i []) k).2) ++
          ⟨k, v⟩ :: ((s.getD i []).drop (sblk_find_pi f (s.getD i []) k).2 ++
            dbPairs (s.drop (i + 1))) := by
        rw [dbPairs_set_insert hlen]
        rw [show nlow ++ (nb ++ dbPairs (s.drop (i + 1))) =
            (nlow ++ nb) ++ dbPairs (s.drop (i + 1)) from (List.append_assoc _ _ _).symm]
        rw [hcat]
        simp only [List.append_assoc, List.cons_append]
      have hnodes_split : ∀ nd ∈ (s.set i nlow).insertIdx (i + 1) nb,
          nd ≠ [] ∧ nd.length ≤ KVBLK_IDXNUM := by
        intro nd hnd
        have hle : i + 1 ≤ (s.set i nlow).length := by
          simp only [List.length_set]
          omega
        rcases (List.mem_insertIdx hle).mp hnd with rfl | hnd2
        · exact ⟨hbne, hbl⟩
        · rcases List.mem_or_eq_of_mem_set hnd2 with h | rfl
          · exact hwf.1 _ h
          · exact ⟨hlne, hll⟩
      have hconc : (lx_put f s k v noOver).1 = RC.ok ∧
          (lx_put f s k v noOver).2 = (s.set i nlow).insertIdx (i + 1) nb →
          (lx_put f s k v noOver).1 = RC.ok ∧
          ∃ pre post,
            dbPairs s = pre ++ post ∧
            dbPairs (lx_put f s k v noOver).2 = pre ++ ⟨k, v⟩ :: post ∧
            (∀ p ∈ pre, keyLt f p.key k) ∧ (∀ p ∈ post, keyLt f k p.key) ∧
            wfDb f (lx_put f s k v noOver).2 := by
        rintro ⟨h1, h2⟩
        rw [h2]
        exact ⟨h1, _, _, hold, hnew_split, hloP', hhiP',
          (wfDb_of_pairs_insert hwf hk hold hnew_split hloP' hhiP' hnodes_split).1⟩
      cases hup : s[i + 1]? with
      | none =>
        refine hconc ?_
        have hbody : lx_put f s k v noOver = (.ok, (s.set i nlow).insertIdx (i + 1) nb) := by
          unfold lx_put
          rw [hfl]
          simp only [hnf, Bool.false_eq_true, if_false, if_neg hcap, hup, hsplit_eq]
        rw [hbody]
        exact ⟨rfl, rfl⟩
      | some u =>
        by_cases huadd : KVBLK_IDXNUM - 1 < (sblk_find_pi f (s.getD i []) k).2 ∧
            u.length < KVBLK_IDXNUM
        · -- neighbour-append into `upper`
          have hi1 : i + 1 < s.length := by
            by_contra hc
            rw [List.getElem?_eq_none (by omega)] at hup
            exact Option.noConfusion hup
          have hueq : s.getD (i + 1) [] = u := by
            rw [List.getD_eq_getElem?_getD, hup]
            rfl
          have hm32 : (sblk_find_pi f (s.getD i []) k).2 = KVBLK_IDXNUM := by
            have := hm'
            rw [hn32] at this
            omega
          obtain ⟨hune, hulen, huval, husort⟩ := wf_at hwf hi1
          rw [hueq] at hune hulen huval husort
          have humem : ∀ p ∈ u, p ∈ (s.getD i []).drop (sblk_find_pi f (s.getD i []) k).2 ++
              dbPairs (s.drop (i + 1)) := by
            intro p hp
            refine List.mem_append_right _ ?_
            rw [dbPairs_drop_succ hi1, hueq]
            exact List.mem_append_left _ hp
          have haddkv : sblk_addkv f u ⟨k, v⟩ = some (⟨k, v⟩ :: u) := by
            refine sblk_addkv_front husort huval hk huadd.2 ?_
            intro j hj
            rw [keyAt_eq_getElem hj]
            exact hhiP' _ (humem _ (List.getElem_mem hj))
          have hbody : lx_put f s k v noOver = (.ok, s.set (i + 1) (⟨k, v⟩ :: u)) := by
            unfold lx_put
            rw [hfl]
            simp only [hnf, Bool.false_eq_true, if_false, if_neg hcap, hup, if_pos huadd,
              haddkv]
          rw [hbody]
          have hdropm : (s.getD i []).drop (sblk_find_pi f (s.getD i []) k).2 = [] := by
            rw [hm32, ← hn32, List.drop_length]
          have htakem : (s.getD i []).take (sblk_find_pi f (s.getD i []) k).2 = s.getD i [] := by
            rw [hm32, ← hn32, List.take_length]
          have hnew : dbPairs (s.set (i + 1) (⟨k, v⟩ :: u)) =
              (dbPairs (s.take i) ++ (s.getD i []).take (sblk_find_pi f (s.getD i []) k).2) ++
              ⟨k, v⟩ :: ((s.getD i []).drop (sblk_find_pi f (s.getD i []) k).2 ++
                dbPairs (s.drop (i + 1))) := by
            rw [dbPairs_set hi1, dbPairs_take_succ hlen, dbPairs_drop_succ hi1, hueq,
              htakem, hdropm]
            simp only [List.append_assoc, List.cons_append, List.nil_append]
          refine ⟨rfl, _, _, hold, hnew, hloP', hhiP', ?_⟩
          refine (wfDb_of_pairs_insert hwf hk hold hnew hloP' hhiP' ?_).1
          intro nd hnd
          rcases List.mem_or_eq_of_mem_set hnd with h | rfl
          · exact hwf.1 _ h
          · refine ⟨by simp, ?_⟩
            simp only [List.length_cons]
            omega
        · refine hconc ?_
          have hbody : lx_put f s k v noOver = (.ok, (s.set i nlow).insertIdx (i + 1) nb) := by
            unfold lx_put
            rw [hfl]
            simp only [hnf, Bool.false_eq_true, if_false, if_neg hcap, hup, if_neg huadd,
              hsplit_eq]
          rw [hbody]
          exact ⟨rfl, rfl⟩

/-! ### `del` against the abstract contents -/

/-- Well-formedness survives removing one pair from the flattened contents. -/
theorem wfDb_of_pairs_remove {f : DbFlg} {s s' : List Node} {q : KVPair}
    {pre post : List KVPair}
    (hwf : wfDb f s)
    (hold : dbPairs s = pre ++ q :: post)
    (hnew : dbPairs s' = pre ++ post)
    (hnodes : ∀ n ∈ s', n ≠ [] ∧ n.length ≤ KVBLK_IDXNUM) :
    wfDb f s' := by
  have hsub : List.Sublist (pre ++ post) (pre ++ q :: post) :=
    List.Sublist.append_left (List.sublist_cons_self q post) pre
  refine ⟨hnodes, ?_, ?_⟩
  · intro K hK
    refine hwf.2.1 K ?_
    unfold dbKeys at hK ⊢
    rw [hnew] at hK
    rw [hold]
    exact (List.Sublist.map KVPair.key hsub).mem hK
  · have hsorted := hwf.2.2
    unfold dbKeys at hsorted ⊢
    rw [hold] at hsorted
    rw [hnew]
    exact List.Pairwise.sublist (List.Sublist.map KVPair.key hsub) hsorted

/-- Deleting an absent key: `IWKV_ERROR_NOTFOUND` and the state — nodes,
pair lists, chain — is returned untouched. -/
theorem lx_del_not_found {f : DbFlg} {s : List Node} {k : Bytes}
    (hwf : wfDb f s) (hk : validKey f k) (hnm : k ∉ dbKeys s) :
    lx_del f s k = (.notFound, s) := by
  cases hfl : findLowerIdx f k s with
  | none =>
    unfold lx_del
    rw [hfl]
  | some i =>
    obtain ⟨hlen, _, _, _⟩ := findLower_some_bounds hwf hk hfl
    obtain ⟨hne, _, hnval, hnsort⟩ := wf_at hwf hlen
    have hnf : (sblk_find_pi f (s.getD i []) k).1 = false := by
      cases h : (sblk_find_pi f (s.getD i []) k).1
      · rfl
      · exact absurd (mem_dbKeys_of_mem_node (getD_mem hlen)
          (sblk_find_pi_not_mem hnsort hnval hk hne h)) hnm
    unfold lx_del
    rw [hfl]
    simp only [hnf, Bool.false_eq_true, if_false]

/-- Deleting a present key: result `ok`, exactly the pair carrying the key is
removed, the state stays well-formed, and the key is gone. -/
theorem lx_del_found {f : DbFlg} {s : List Node} {k : Bytes}
    (hwf : wfDb f s) (hk : validKey f k) (hmem : k ∈ dbKeys s) :
    (lx_del f s k).1 = .ok ∧
    (∃ pre post w,
      dbPairs s = pre ++ ⟨k, w⟩ :: post ∧
      dbPairs (lx_del f s k).2 = pre ++ post) ∧
    wfDb f (lx_del f s k).2 ∧
    k ∉ dbKeys (lx_del f s k).2 := by
  cases hfl : findLowerIdx f k s with
  | none =>
    exact absurd (findLower_none_bounds hwf hk hfl k hmem) (keyLt_irrefl f k)
  | some i =>
    obtain ⟨hlen, _, _, _⟩ := findLower_some_bounds hwf hk hfl
    obtain ⟨hne, hnlen, hnval, hnsort⟩ := wf_at hwf hlen
    cases hf : (sblk_find_pi f (s.getD i []) k).1 with
    | false => exact absurd hmem (not_mem_of_not_found hwf hk hfl hf)
    | true =>
      obtain ⟨hm, hkeq⟩ := located_found hwf hk hfl hf
      have hkeyp : (s.getD i [])[(sblk_find_pi f (s.getD i []) k).2].key = k := by
        rw [keyAt_eq_getElem hm] at hkeq
        exact hkeq
      have hpair_eta : (s.getD i [])[(sblk_find_pi f (s.getD i []) k).2] =
          (⟨k, (s.getD i [])[(sblk_find_pi f (s.getD i []) k).2].val⟩ : KVPair) := by
        cases hp : (s.getD i [])[(sblk_find_pi f (s.getD i []) k).2] with
        | mk pk pv =>
          have hpk : pk = k := by rw [← hkeyp, hp]
          rw [hpk]
      have hdec : s.getD i [] =
          (s.getD i []).take (sblk_find_pi f (s.getD i []) k).2 ++
          (s.getD i [])[(sblk_find_pi f (s.getD i []) k).2] ::
          (s.getD i []).drop ((sblk_find_pi f (s.getD i []) k).2 + 1) := by
        conv_lhs => rw [← List.take_append_drop (sblk_find_pi f (s.getD i []) k).2 (s.getD i [])]
        congr 1
        exact List.drop_eq_getElem_cons hm
      have hold : dbPairs s =
          (dbPairs (s.take i) ++ (s.getD i []).take (sblk_find_pi f (s.getD i []) k).2) ++
          (⟨k, (s.getD i [])[(sblk_find_pi f (s.getD i []) k).2].val⟩ : KVPair) ::
          ((s.getD i []).drop ((sblk_find_pi f (s.getD i []) k).2 + 1) ++
            dbPairs (s.drop (i + 1))) := by
        rw [dbPairs_split hlen]
        conv_lhs => rw [hdec]
        rw [← hpair_eta]
        simp only [List.append_assoc, List.cons_append]
      have hknotin : k ∉ ((dbPairs (s.take i) ++
          (s.getD i []).take (sblk_find_pi f (s.getD i []) k).2).map KVPair.key ++
          ((s.getD i []).drop ((sblk_find_pi f (s.getD i []) k).2 + 1) ++
            dbPairs (s.drop (i + 1))).map KVPair.key) := by
        have hnd := dbKeys_nodup hwf
        unfold dbKeys at hnd
        rw [hold] at hnd
        rw [List.map_append, List.map_cons] at hnd
        have := (List.nodup_append.mp hnd)
        intro hc
        rcases List.mem_append.mp hc with h1 | h2
        · exact (this.2.2 h1 (by simp))
        · have := List.nodup_cons.mp this.2.1
          exact this.1 h2
      by_cases h1len : (s.getD i []).length = 1
      · have hm0 : (sblk_find_pi f (s.getD i []) k).2 = 0 := by omega
        have hbody : lx_del f s k = (.ok, s.eraseIdx i) := by
          unfold lx_del
          rw [hfl]
          simp only [hf, if_true, if_pos h1len]
        rw [hbody]
        have hemptyparts : (s.getD i []).take (sblk_find_pi f (s.getD i []) k).2 = [] ∧
            (s.getD i []).drop ((sblk_find_pi f (s.getD i []) k).2 + 1) = [] := by
          constructor
          · rw [hm0]
            rfl
          · rw [hm0]
            exact List.drop_eq_nil_of_le (by omega)
        have hnew : dbPairs (s.eraseIdx i) =
            (dbPairs (s.take i) ++ (s.getD i []).take (sblk_find_pi f (s.getD i []) k).2) ++
            ((s.getD i []).drop ((sblk_find_pi f (s.getD i []) k).2 + 1) ++
              dbPairs (s.drop (i + 1))) := by
          rw [dbPairs_eraseIdx hlen, hemptyparts.1, hemptyparts.2]
          simp
        refine ⟨rfl, ⟨_, _, _, hold, hnew⟩, ?_, ?_⟩
        · refine wfDb_of_pairs_remove hwf hold hnew ?_
          intro nd hnd
          exact hwf.1 _ (List.mem_of_mem_eraseIdx hnd)
        · unfold dbKeys
          rw [hnew, List.map_append]
          exact hknotin
      · have hbody : lx_del f s k =
            (.ok, s.set i (sblk_rmkv (s.getD i []) (sblk_find_pi f (s.getD i []) k).2)) := by
          unfold lx_del
          rw [hfl]
          simp only [hf, if_true, if_neg h1len]
        rw [hbody]
        have hnew : dbPairs (s.set i (sblk_rmkv (s.getD i [])
            (sblk_find_pi f (s.getD i []) k).2)) =
            (dbPairs (s.take i) ++ (s.getD i []).take (sblk_find_pi f (s.getD i []) k).2) ++
            ((s.getD i []).drop ((sblk_find_pi f (s.getD i []) k).2 + 1) ++
              dbPairs (s.drop (i + 1))) := by
          rw [dbPairs_set hlen]
          unfold sblk_rmkv
          rw [List.eraseIdx_eq_take_drop_succ]
          simp only [List.append_assoc]
        refine ⟨rfl, ⟨_, _, _, hold, hnew⟩, ?_, ?_⟩
        · refine wfDb_of_pairs_remove hwf hold hnew ?_
          intro nd hnd
          rcases List.mem_or_eq_of_mem_set hnd with h | rfl
          · exact hwf.1 _ h
          · have herlen : ((s.getD i []).eraseIdx (sblk_find_pi f (s.getD i []) k).2).length
                = (s.getD i []).length - 1 := by
              rw [List.eraseIdx_eq_take_drop_succ]
              simp only [List.length_append, List.length_take, List.length_drop]
              omega
            unfold sblk_rmkv
            constructor
            · intro hc
              rw [hc] at herlen
              simp only [List.length_nil] at herlen
              omega
            · rw [herlen]
              omega
        · unfold dbKeys
          rw [hnew, List.map_append]
          exact hknotin

/-! ## Claim C1: put/get round trip -/

/-- One plain put (any present/absent state) succeeds, keeps the state
well-formed, and a get of the same key then returns the value just put. -/
theorem lx_put_step {f : DbFlg} {s : List Node} {k v : Bytes}
    (hwf : wfDb f s) (hk : validKey f k) :
    (lx_put f s k v false).1 = .ok ∧ wfDb f (lx_put f s k v false).2 ∧
    lx_get f (lx_put f s k v false).2 k = some v := by
  by_cases hmem : k ∈ dbKeys s
  · obtain ⟨hok, ⟨pre, post, w, hold, hnew⟩, hkeys, hwf'⟩ := lx_put_update (v := v) hwf hk hmem
    refine ⟨hok, hwf', ?_⟩
    refine lx_get_of_mem hwf' hk ?_
    rw [hnew]
    simp
  · obtain ⟨hok, pre, post, hold, hnew, hpre, hpost, hwf'⟩ :=
      @lx_put_insert f s k v false hwf hk hmem
    refine ⟨hok, hwf', ?_⟩
    refine lx_get_of_mem hwf' hk ?_
    rw [hnew]
    simp

/-- The state after a sequence of puts of values `vs` under one key. -/
def putSeq (f : DbFlg) (k : Bytes) : List Node → List Bytes → List Node
  | st, [] => st
  | st, w :: ws => putSeq f k (lx_put f st k w false).2 ws

/-- Every put of the sequence reported success. -/
def putSeqOk (f : DbFlg) (k : Bytes) : List Node → List Bytes → Prop
  | _, [] => True
  | st, w :: ws => (lx_put f st k w false).1 = .ok ∧
      putSeqOk f k (lx_put f st k w false).2 ws

instance putSeqOk.dec (f : DbFlg) (k : Bytes) :
    ∀ st vs, Decidable (putSeqOk f k st vs)
  | _, [] => .isTrue trivial
  | st, w :: ws =>
    have : Decidable (putSeqOk f k (lx_put f st k w false).2 ws) :=
      putSeqOk.dec f k _ ws
    instDecidableAnd

/-- C1.  For every database (any key-format flags), every well-formed state
and every non-empty sequence of puts of one (engine-distinguishable) key,
each put succeeds and a subsequent get of that key returns the value of the
most recent put — the last write wins, whether a put inserted a new pair or
overwrote an existing one. -/
theorem C1_put_get_roundtrip {f : DbFlg} {s : List Node} {k : Bytes}
    (hwf : wfDb f s) (hk : validKey f k) :
    ∀ vs : List Bytes, vs ≠ [] →
      putSeqOk f k s vs ∧ lx_get f (putSeq f k s vs) k = vs.getLast? := by
  intro vs
  induction vs generalizing s with
  | nil => intro h; exact absurd rfl h
  | cons v ws ih =>
    intro _
    obtain ⟨hok, hwf', hget⟩ := lx_put_step (v := v) hwf hk
    cases ws with
    | nil =>
      refine ⟨⟨hok, trivial⟩, ?_⟩
      simpa [putSeq] using hget
    | cons w ws' =>
      obtain ⟨hchain, hlast⟩ := ih hwf' (by simp)
      refine ⟨⟨hok, hchain⟩, ?_⟩
      rw [show putSeq f k s (v :: w :: ws') =
        putSeq f k (lx_put f s k v false).2 (w :: ws') from rfl, hlast]
      simp

/-- C1 witness: two puts of key `[1]` on the empty byte-key database, then a
get, observing the second value. -/
theorem C1_put_get_roundtrip_witness :
    wfDb DbFlg.plain [] ∧ validKey DbFlg.plain [1] ∧
    ([[2], [3]] : List Bytes) ≠ [] ∧
    (putSeqOk DbFlg.plain [1] [] [[2], [3]] ∧
      lx_get DbFlg.plain (putSeq DbFlg.plain [1] [] [[2], [3]]) [1] =
        ([[2], [3]] : List Bytes).getLast?) :=
  ⟨by decide, by decide, by decide,
    C1_put_get_roundtrip (by decide) (by decide) [[2], [3]] (by decide)⟩

/-! ## Claim C5: NO_OVERWRITE put on an existing key -/

/-- C5.  A put with `IWKV_NO_OVERWRITE` whose descent finds the key already
present returns `IWKV_ERROR_KEY_EXISTS` and leaves the database state — in
particular the stored value of that key — unchanged. -/
theorem C5_no_overwrite_keyExists {f : DbFlg} {s : List Node} {k v : Bytes}
    (hwf : wfDb f s) (hk : validKey f k) (hmem : k ∈ dbKeys s) :
    lx_put f s k v true = (.keyExists, s) ∧
    lx_get f (lx_put f s k v true).2 k = lx_get f s k := by
  have h := lx_put_keyExists (v := v) hwf hk hmem
  exact ⟨h, by rw [h]⟩

/-- C5 witness: `NO_OVERWRITE` put of `[5]` on a database storing
`[5] ↦ [7]`. -/
theorem C5_no_overwrite_keyExists_witness :
    wfDb DbFlg.plain [[⟨[5], [7]⟩]] ∧ validKey DbFlg.plain [5] ∧
    [5] ∈ dbKeys [[⟨[5], [7]⟩]] ∧
    (lx_put DbFlg.plain [[⟨[5], [7]⟩]] [5] [9] true = (.keyExists, [[⟨[5], [7]⟩]]) ∧
      lx_get DbFlg.plain (lx_put DbFlg.plain [[⟨[5], [7]⟩]] [5] [9] true).2 [5] =
        lx_get DbFlg.plain [[⟨[5], [7]⟩]] [5]) :=
  ⟨by decide, by decide, by decide,
    C5_no_overwrite_keyExists (by decide) (by decide) (by decide)⟩

/-! ## Claim C4: idempotent delete -/

/-- C4.  Deleting an absent key returns `IWKV_ERROR_NOTFOUND` and leaves the
state unchanged; after a successful delete of a key, deleting it again
returns `IWKV_ERROR_NOTFOUND` (and again leaves the state unchanged). -/
theorem C4_idempotent_delete {f : DbFlg} {s : List Node} {k : Bytes}
    (hwf : wfDb f s) (hk : validKey f k) :
    (k ∉ dbKeys s → lx_del f s k = (.notFound, s)) ∧
    (k ∈ dbKeys s → (lx_del f s k).1 = .ok ∧
      lx_del f (lx_del f s k).2 k = (.notFound, (lx_del f s k).2)) := by
  refine ⟨fun hnm => lx_del_not_found hwf hk hnm, fun hmem => ?_⟩
  obtain ⟨hok, _, hwf', hgone⟩ := lx_del_found hwf hk hmem
  exact ⟨hok, lx_del_not_found hwf' hk hgone⟩

/-- C4 witness: deleting `[9]` (absent) from a database storing `[5] ↦ [7]`
is a no-op `NotFound`; deleting `[5]` succeeds and a second delete of `[5]`
reports `NotFound`. -/
theorem C4_idempotent_delete_witness :
    (wfDb DbFlg.plain [[⟨[5], [7]⟩]] ∧ validKey DbFlg.plain [9] ∧
      [9] ∉ dbKeys [[⟨[5], [7]⟩]] ∧
      lx_del DbFlg.plain [[⟨[5], [7]⟩]] [9] = (.notFound, [[⟨[5], [7]⟩]])) ∧
    (validKey DbFlg.plain [5] ∧ [5] ∈ dbKeys [[⟨[5], [7]⟩]] ∧
      (lx_del DbFlg.plain [[⟨[5], [7]⟩]] [5]).1 = .ok ∧
      lx_del DbFlg.plain (lx_del DbFlg.plain [[⟨[5], [7]⟩]] [5]).2 [5] =
        (.notFound, (lx_del DbFlg.plain [[⟨[5], [7]⟩]] [5]).2)) :=
  ⟨⟨by decide, by decide, by decide,
      (C4_idempotent_delete (by decide) (by decide)).1 (by decide)⟩,
    ⟨by decide, by decide,
      (C4_idempotent_delete (by decide) (by decide)).2 (by decide)⟩⟩

/-! ## Claim C3: split preservation -/

/-- C3.  For a full node (`pnum = KVBLK_IDXNUM = 32`) whose binary search did
not find the put key and reported insertion index `m`, `_lx_split_addkv`
succeeds and: if `m = pnum` the new pair goes entirely into the new node `nb`;
otherwise the pairs at permutation indices `pivot..pnum-1`
(`pivot = KVBLK_IDXNUM/2 + 1 = 17`) move into `nb`, and the new pair is placed
in `nb` when `m > pivot`, else in the lower node.  The concatenation of the
two result nodes equals the pre-split pairs with the new pair inserted at its
index, both results are non-empty, and every key of the lower node precedes
every key of the new node in comparator order (for byte keys the comparator
is reversed, so "precedes" is descending raw byte order). -/
theorem C3_split_preservation {f : DbFlg} {n : Node} {k v : Bytes} {m : Nat}
    (hsort : (n.map KVPair.key).Pairwise (keyLt f))
    (hval : ∀ p ∈ n, validKey f p.key) (hk : validKey f k)
    (hn32 : n.length = KVBLK_IDXNUM)
    (hfind : sblk_find_pi f n k = (false, m)) :
    ∃ nlow nb, lx_split_addkv f n m ⟨k, v⟩ = some (nlow, nb) ∧
      (m = n.length → nlow = n ∧ nb = [⟨k, v⟩]) ∧
      (m < n.length → 17 < m → nlow = n.take 17 ∧
        nb = (n.drop 17).take (m - 17) ++ ⟨k, v⟩ :: n.drop m) ∧
      (m < n.length → m ≤ 17 → nb = n.drop 17 ∧
        nlow = n.take m ++ ⟨k, v⟩ :: (n.take 17).drop m) ∧
      nlow ++ nb = n.take m ++ ⟨k, v⟩ :: n.drop m ∧
      nlow ≠ [] ∧ nb ≠ [] ∧
      (∀ p ∈ nlow, ∀ q ∈ nb, keyLt f p.key q.key) := by
  have hKN : KVBLK_IDXNUM = 32 := rfl
  have hne : n ≠ [] := by
    intro hc; rw [hc] at hn32; simp [hKN] at hn32
  have h1 : (sblk_find_pi f n k).1 = false := by rw [hfind]
  have h2 : (sblk_find_pi f n k).2 = m := by rw [hfind]
  have hnf := sblk_find_pi_not_found hsort hval hk hne h1
  rw [h2] at hnf
  obtain ⟨hm, hlo, hhi⟩ := hnf
  obtain ⟨nlow, nb, heq, hcat, hne1, hne2, hl1, hl2⟩ :=
    lx_split_spec (v := v) hsort hval hk hn32 hm hlo hhi
  have hpivot : KVBLK_IDXNUM / 2 + 1 = 17 := by norm_num [KVBLK_IDXNUM]
  -- the inserted list is sorted, giving the cross ordering
  have hins : ((n.take m ++ ⟨k, v⟩ :: n.drop m).map KVPair.key).Pairwise (keyLt f) := by
    rw [List.map_append, List.map_cons]
    refine pairwise_insert_middle ?_ ?_ ?_
    · rw [← List.map_append, List.take_append_drop]; exact hsort
    · intro x hx
      obtain ⟨p, hp, rfl⟩ := List.mem_map.mp hx
      obtain ⟨j, hjm, hjl, hkey⟩ := mem_take_key hp
      rw [← hkey]; exact hlo j hjm
    · intro y hy
      obtain ⟨p, hp, rfl⟩ := List.mem_map.mp hy
      obtain ⟨j, hjm, hjl, hkey⟩ := mem_drop_key hp
      rw [← hkey]; exact hhi j hjm hjl
  have hcross : ∀ p ∈ nlow, ∀ q ∈ nb, keyLt f p.key q.key := by
    rw [← hcat, List.map_append, List.pairwise_append] at hins
    intro p hp q hq
    exact hins.2.2 _ (List.mem_map_of_mem _ hp) _ (List.mem_map_of_mem _ hq)
  refine ⟨nlow, nb, heq, ?_, ?_, ?_, hcat, hne1, hne2, hcross⟩
  · -- m = pnum: new pair alone in nb
    intro hme
    have hval' : lx_split_addkv f n m ⟨k, v⟩ = some (n, [⟨k, v⟩]) := by
      rw [lx_split_addkv, if_pos hme]; rfl
    have h := Option.some.inj (hval'.symm.trans heq)
    exact ⟨(congrArg Prod.fst h).symm, (congrArg Prod.snd h).symm⟩
  · -- pivot < m < pnum: tail of the node plus the new pair go to nb
    intro hmlt h17
    have hme : ¬ m = n.length := by omega
    rw [lx_split_addkv, if_neg hme] at heq
    simp only [hpivot] at heq
    rw [if_pos h17] at heq
    rcases haddkv : sblk_addkv f (n.drop 17) ⟨k, v⟩ with _ | x
    · rw [haddkv] at heq; simp at heq
    · rw [haddkv] at heq
      simp only [Option.map_some'] at heq
      have h := Option.some.inj heq
      have hnlow : nlow = n.take 17 := (congrArg Prod.fst h).symm
      refine ⟨hnlow, ?_⟩
      rw [hnlow] at hcat
      have htake : n.take m = n.take 17 ++ (n.drop 17).take (m - 17) := by
        conv_lhs => rw [show m = 17 + (m - 17) by omega]
        exact List.take_add n 17 (m - 17)
      rw [htake, List.append_assoc] at hcat
      exact List.append_cancel_left hcat
  · -- m ≤ pivot: tail of the node goes to nb, new pair stays in lower
    intro hmlt h17
    have hme : ¬ m = n.length := by omega
    rw [lx_split_addkv, if_neg hme] at heq
    simp only [hpivot] at heq
    rw [if_neg (by omega)] at heq
    rcases haddkv : sblk_addkv f (n.take 17) ⟨k, v⟩ with _ | x
    · rw [haddkv] at heq; simp at heq
    · rw [haddkv] at heq
      simp only [Option.map_some'] at heq
      have h := Option.some.inj heq
      have hnb : nb = n.drop 17 := (congrArg Prod.snd h).symm
      refine ⟨hnb, ?_⟩
      rw [hnb] at hcat
      have hdrop : n.drop m = (n.take 17).drop m ++ n.drop 17 := by
        conv_lhs => rw [← List.take_append_drop 17 n]
        rw [List.drop_append_eq_append_drop]
        have hlen17 : (n.take 17).length = 17 := by
          rw [List.length_take]; omega
        rw [hlen17, show m - 17 = 0 by omega, List.drop_zero]
      rw [hdrop] at hcat
      have hre : n.take m ++ ⟨k, v⟩ :: ((n.take 17).drop m ++ n.drop 17) =
          (n.take m ++ ⟨k, v⟩ :: (n.take 17).drop m) ++ n.drop 17 := by
        simp only [List.append_assoc, List.cons_append]
      rw [hre] at hcat
      exact List.append_cancel_right hcat

/-- A full (32-slot) example node with descending one-byte keys
`[64], [62], …, [2]` — sorted for the reversed byte comparator. -/
def splitNodeEx : Node := (List.range 32).map (fun i => ⟨[64 - 2 * i], []⟩)

/-- C3 witness: splitting the full example node while inserting key `[33]`
(insertion index 16, i.e. the lower half hosts it). -/
theorem C3_split_preservation_witness :
    (splitNodeEx.map KVPair.key).Pairwise (keyLt DbFlg.plain) ∧
    (∀ p ∈ splitNodeEx, validKey DbFlg.plain p.key) ∧
    validKey DbFlg.plain [33] ∧
    splitNodeEx.length = KVBLK_IDXNUM ∧
    sblk_find_pi DbFlg.plain splitNodeEx [33] = (false, 16) ∧
    (∃ nlow nb,
      lx_split_addkv DbFlg.plain splitNodeEx 16 ⟨[33], [7]⟩ = some (nlow, nb) ∧
      (16 = splitNodeEx.length → nlow = splitNodeEx ∧ nb = [⟨[33], [7]⟩]) ∧
      (16 < splitNodeEx.length → 17 < 16 → nlow = splitNodeEx.take 17 ∧
        nb = (splitNodeEx.drop 17).take (16 - 17) ++
          ⟨[33], [7]⟩ :: splitNodeEx.drop 16) ∧
      (16 < splitNodeEx.length → 16 ≤ 17 → nb = splitNodeEx.drop 17 ∧
        nlow = splitNodeEx.take 16 ++
          ⟨[33], [7]⟩ :: (splitNodeEx.take 17).drop 16) ∧
      nlow ++ nb = splitNodeEx.take 16 ++ ⟨[33], [7]⟩ :: splitNodeEx.drop 16 ∧
      nlow ≠ [] ∧ nb ≠ [] ∧
      (∀ p ∈ nlow, ∀ q ∈ nb, keyLt DbFlg.plain p.key q.key)) :=
  ⟨by decide, by decide, by decide, by decide, by decide,
    C3_split_preservation (by decide) (by decide) (by decide) (by decide)
      (by decide)⟩

/-! ## Claim C2: the key comparator -/

/-- C2 (amended).  For keys the engine can actually distinguish — nonempty
NUL-free byte strings for a plain database, exactly-8/4-byte keys for
`UINT64_KEYS`/`UINT32_KEYS` — `_cmp_key` compares equal exactly on identical
keys, and its sign is the full lexicographic byte comparison (first differing
byte, then length) of its arguments taken in reversed order
(`cmp_key v1 v2` has the sign of `compare v2 v1`); on numeric databases this
coincides with the fixed-width big-endian integer comparison.  The original
claim fails without the NUL-free restriction because the underlying
`strncmp` stops at NUL bytes: see the counterexample. -/
theorem C2_comparator {f : DbFlg} {a b : Bytes}
    (ha : validKey f a) (hb : validKey f b) :
    (cmp_key f a b = 0 ↔ a = b) ∧
    (cmp_key f a b < 0 ↔ lexCmp b a < 0) ∧
    (0 < cmp_key f a b ↔ lexCmp a b < 0) ∧
    ((f.u64 = true ∨ f.u32 = true) →
      (cmp_key f a b < 0 ↔ beDecode b < beDecode a)) := by
  refine ⟨cmp_key_eq_iff ha hb, (cmp_key_lex ha hb).1, cmp_key_pos_iff ha hb, ?_⟩
  intro hnum
  rw [(cmp_key_lex ha hb).1]
  obtain ⟨u32, u64⟩ := f
  cases u64
  · cases u32
    · simp at hnum
    · simp only [validKey, if_neg (by simp : ¬(DbFlg.mk true false).u64 = true),
        if_pos (by simp : (DbFlg.mk true false).u32 = true)] at ha hb
      have hlen : b.length = a.length := by rw [hb.1, ha.1]
      exact ((beDecode_lt_iff hlen hb.2 ha.2).1).symm
  · simp only [validKey,
      if_pos (by simp : (DbFlg.mk u32 true).u64 = true)] at ha hb
    have hlen : b.length = a.length := by rw [hb.1, ha.1]
    exact ((beDecode_lt_iff hlen hb.2 ha.2).1).symm

/-- C2 witness: two 8-byte keys of a `UINT64_KEYS` database, with every part
of the amended statement evaluated. -/
theorem C2_comparator_witness :
    validKey (DbFlg.mk false true) [0, 0, 0, 0, 0, 0, 0, 2] ∧
    validKey (DbFlg.mk false true) [0, 0, 0, 0, 0, 0, 1, 0] ∧
    ((cmp_key (DbFlg.mk false true) [0, 0, 0, 0, 0, 0, 0, 2]
        [0, 0, 0, 0, 0, 0, 1, 0] = 0 ↔
      ([0, 0, 0, 0, 0, 0, 0, 2] : Bytes) = [0, 0, 0, 0, 0, 0, 1, 0]) ∧
    (cmp_key (DbFlg.mk false true) [0, 0, 0, 0, 0, 0, 0, 2]
        [0, 0, 0, 0, 0, 0, 1, 0] < 0 ↔
      lexCmp [0, 0, 0, 0, 0, 0, 1, 0] [0, 0, 0, 0, 0, 0, 0, 2] < 0) ∧
    (0 < cmp_key (DbFlg.mk false true) [0, 0, 0, 0, 0, 0, 0, 2]
        [0, 0, 0, 0, 0, 0, 1, 0] ↔
      lexCmp [0, 0, 0, 0, 0, 0, 0, 2] [0, 0, 0, 0, 0, 0, 1, 0] < 0) ∧
    (((DbFlg.mk false true).u64 = true ∨ (DbFlg.mk false true).u32 = true) →
      (cmp_key (DbFlg.mk false true) [0, 0, 0, 0, 0, 0, 0, 2]
          [0, 0, 0, 0, 0, 0, 1, 0] < 0 ↔
        beDecode [0, 0, 0, 0, 0, 0, 1, 0] <
          beDecode [0, 0, 0, 0, 0, 0, 0, 2]))) :=
  ⟨by decide, by decide, C2_comparator (by decide) (by decide)⟩

/-- C2 counterexample to the original claim: on a plain byte-key database the
distinct keys `[1,0,1]` and `[1,0,2]` compare equal (`strncmp` stops at the
embedded NUL), while a true full-bytes lexicographic compare separates
them — so the comparator is not "a lexicographic byte compare over the full
key bytes" with equality only on identical strings. -/
theorem C2_counterexample :
    cmp_key DbFlg.plain [1, 0, 1] [1, 0, 2] = 0 ∧
    ([1, 0, 1] : Bytes) ≠ [1, 0, 2] ∧
    lexCmp [1, 0, 1] [1, 0, 2] ≠ 0 := by decide

/-! ## Claim C9: cursor positioning by key -/

/-- C9.  Cursor positioning (`_cursor_to_lr` → `_cursor_get_ge_idx`): with
`IWKV_CURSOR_EQ` the cursor fails with `IWKV_ERROR_NOTFOUND` exactly when the
key is not stored.  With `IWKV_CURSOR_GE`: when the descent stops at the
database header (`findLowerIdx = none`, every stored key is above the search
key in comparator order) the result is `IWKV_ERROR_NOTFOUND`; on a hit the
cursor lands on the matching slot; on a miss in a (necessarily non-empty)
lower node the binary search overran, its insertion index is at least 1, and
the cursor lands on index `idx − 1`, which carries the greatest stored key
below the search key in comparator order — every other stored key is below
the cursor key or above the search key.  (For byte keys the comparator order
is descending raw order, so this cursor key is the smallest stored key whose
bytes are above the search key — the "first key ≥ key" of the claim.) -/
theorem C9_cursor_positioning {f : DbFlg} {s : List Node} {k : Bytes}
    (hwf : wfDb f s) (hk : validKey f k) :
    (cursor_to_key f s k .EQ = none ↔ k ∉ dbKeys s) ∧
    (findLowerIdx f k s = none →
      cursor_to_key f s k .GE = none ∧ ∀ K ∈ dbKeys s, keyLt f k K) ∧
    (∀ i, findLowerIdx f k s = some i →
      ((sblk_find_pi f (s.getD i []) k).1 = true →
        cursor_to_key f s k .GE = some (i, (sblk_find_pi f (s.getD i []) k).2) ∧
        keyAt (s.getD i []) (sblk_find_pi f (s.getD i []) k).2 = k) ∧
      ((sblk_find_pi f (s.getD i []) k).1 = false →
        1 ≤ (sblk_find_pi f (s.getD i []) k).2 ∧
        cursor_to_key f s k .GE =
          some (i, (sblk_find_pi f (s.getD i []) k).2 - 1) ∧
        keyLt f (keyAt (s.getD i []) ((sblk_find_pi f (s.getD i []) k).2 - 1)) k ∧
        ∀ K ∈ dbKeys s,
          K = keyAt (s.getD i []) ((sblk_find_pi f (s.getD i []) k).2 - 1) ∨
          keyLt f K (keyAt (s.getD i []) ((sblk_find_pi f (s.getD i []) k).2 - 1)) ∨
          keyLt f k K)) := by
  refine ⟨⟨?_, ?_⟩, ?_, ?_⟩
  · -- EQ = none → key absent
    intro hnone hmem
    cases hfl : findLowerIdx f k s with
    | none =>
      exact keyLt_irrefl f k (findLower_none_bounds hwf hk hfl k hmem)
    | some i =>
      cases hr : (sblk_find_pi f (s.getD i []) k).1 with
      | false => exact not_mem_of_not_found hwf hk hfl hr hmem
      | true =>
        unfold cursor_to_key at hnone
        rw [hfl] at hnone
        simp only [hr, if_true] at hnone
        exact Option.noConfusion hnone
  · -- key absent → EQ = none
    intro hnmem
    cases hfl : findLowerIdx f k s with
    | none => unfold cursor_to_key; rw [hfl]
    | some i =>
      obtain ⟨hlen, _, _, _⟩ := findLower_some_bounds hwf hk hfl
      cases hr : (sblk_find_pi f (s.getD i []) k).1 with
      | true =>
        obtain ⟨hidx, hkey⟩ := located_found hwf hk hfl hr
        have hkmem : k ∈ (s.getD i []).map KVPair.key := by
          rw [← hkey, keyAt_eq hidx]
          exact List.mem_map_of_mem _ (List.get_mem _ _ hidx)
        exact absurd (mem_dbKeys_of_mem_node (getD_mem hlen) hkmem) hnmem
      | false =>
        unfold cursor_to_key
        rw [hfl]
        simp only [hr, Bool.false_eq_true, if_false]
        rw [if_pos (Or.inl trivial)]
  · -- GE from the database header
    intro hfl
    refine ⟨?_, findLower_none_bounds hwf hk hfl⟩
    unfold cursor_to_key
    rw [hfl]
  · -- GE inside a lower node
    intro i hfl
    obtain ⟨hlen, hpre, hmid, hsuf⟩ := findLower_some_bounds hwf hk hfl
    obtain ⟨hne, hcap, hval, hsort⟩ := wf_at hwf hlen
    constructor
    · intro hr
      obtain ⟨hidx, hkey⟩ := located_found hwf hk hfl hr
      refine ⟨?_, hkey⟩
      unfold cursor_to_key
      rw [hfl]
      simp only [hr, if_true]
    · intro hr
      obtain ⟨hm, hlo, hhi⟩ := sblk_find_pi_not_found hsort hval hk hne hr
      have hlen0 : 0 < (s.getD i []).length := List.length_pos.mpr hne
      have hm1 : 1 ≤ (sblk_find_pi f (s.getD i []) k).2 := by
        by_contra hc
        have h0 : (sblk_find_pi f (s.getD i []) k).2 = 0 := by omega
        have hk0 : keyLt f k (keyAt (s.getD i []) 0) := by
          have := hhi 0 (by omega) hlen0
          exact this
        have hminkey : nodeMinKey (s.getD i []) = keyAt (s.getD i []) 0 := by
          cases hcase : s.getD i [] with
          | nil => exact absurd hcase hne
          | cons p ps => simp [nodeMinKey, keyAt]
        have hvm : validKey f (keyAt (s.getD i []) 0) := validKey_keyAt hval hlen0
        rw [hminkey] at hmid
        exact hmid ((keyLt_of_cmp_pos hvm hk).mpr hk0)
      have hj : (sblk_find_pi f (s.getD i []) k).2 - 1 < (s.getD i []).length := by
        omega
      refine ⟨hm1, ?_, hlo _ (by omega), ?_⟩
      · -- the cursor lands on idx - 1
        unfold cursor_to_key
        rw [hfl]
        simp only [hr, Bool.false_eq_true, if_false]
        rw [if_neg (by
          intro hc
          rcases hc with hc | hc
          · exact CursorOp.noConfusion hc
          · omega)]
        rw [if_neg (by omega : ¬ (sblk_find_pi f (s.getD i []) k).2 = 0)]
      · -- maximality of the cursor key below the search key
        have hnode : s.getD i [] =
            (s.getD i []).take ((sblk_find_pi f (s.getD i []) k).2 - 1) ++
            (s.getD i [])[(sblk_find_pi f (s.getD i []) k).2 - 1] ::
            (s.getD i []).drop (sblk_find_pi f (s.getD i []) k).2 := by
          conv_lhs => rw [← List.take_append_drop
            ((sblk_find_pi f (s.getD i []) k).2 - 1) (s.getD i []),
            List.drop_eq_getElem_cons hj,
            show (sblk_find_pi f (s.getD i []) k).2 - 1 + 1 =
              (sblk_find_pi f (s.getD i []) k).2 from by omega]
        have hdecomp : dbPairs s =
            (dbPairs (s.take i) ++
              (s.getD i []).take ((sblk_find_pi f (s.getD i []) k).2 - 1)) ++
            ((s.getD i [])[(sblk_find_pi f (s.getD i []) k).2 - 1] ::
              ((s.getD i []).drop (sblk_find_pi f (s.getD i []) k).2 ++
                dbPairs (s.drop (i + 1)))) := by
          rw [dbPairs_split hlen]
          conv_lhs => rw [hnode]
          simp only [List.append_assoc, List.cons_append]
        have hK0 : keyAt (s.getD i []) ((sblk_find_pi f (s.getD i []) k).2 - 1) =
            ((s.getD i [])[(sblk_find_pi f (s.getD i []) k).2 - 1]).key :=
          keyAt_eq_getElem hj
        have hkeys : dbKeys s =
            ((dbPairs (s.take i) ++
              (s.getD i []).take ((sblk_find_pi f (s.getD i []) k).2 - 1)).map
                KVPair.key) ++
            ((s.getD i [])[(sblk_find_pi f (s.getD i []) k).2 - 1]).key ::
            (((s.getD i []).drop (sblk_find_pi f (s.getD i []) k).2 ++
              dbPairs (s.drop (i + 1))).map KVPair.key) := by
          rw [dbKeys, hdecomp]
          simp
        have hpw := hwf.2.2
        rw [hkeys, List.pairwise_append] at hpw
        intro K hK
        rw [hkeys] at hK
        rcases List.mem_append.mp hK with hKpre | hKrest
        · refine Or.inr (Or.inl ?_)
          rw [hK0]
          exact hpw.2.2 K hKpre _ (List.mem_cons_self _ _)
        · rcases List.mem_cons.mp hKrest with hKeq | hKpost
          · exact Or.inl (by rw [hK0, hKeq])
          · refine Or.inr (Or.inr ?_)
            obtain ⟨p, hp, rfl⟩ := List.mem_map.mp hKpost
            rcases List.mem_append.mp hp with hp1 | hp2
            · obtain ⟨j, hjm, hjlen, hjk⟩ := mem_drop_key hp1
              exact hjk ▸ hhi j hjm hjlen
            · exact hsuf p.key (List.mem_map_of_mem _ hp2)

/-- A two-pair example node chain for the cursor witness: keys `[9]`, `[5]`
(descending raw order, i.e. sorted for the reversed comparator). -/
def curEx : List Node := [[⟨[9], [1]⟩, ⟨[5], [2]⟩]]

/-- C9 witness: positioning on the absent key `[7]`; `EQ` yields `NotFound`
and `GE` lands on index `idx − 1 = 0`, the slot of key `[9]`. -/
theorem C9_cursor_positioning_witness :
    wfDb DbFlg.plain curEx ∧ validKey DbFlg.plain [7] ∧
    ((cursor_to_key DbFlg.plain curEx [7] .EQ = none ↔ [7] ∉ dbKeys curEx) ∧
    (findLowerIdx DbFlg.plain [7] curEx = none →
      cursor_to_key DbFlg.plain curEx [7] .GE = none ∧
      ∀ K ∈ dbKeys curEx, keyLt DbFlg.plain [7] K) ∧
    (∀ i, findLowerIdx DbFlg.plain [7] curEx = some i →
      ((sblk_find_pi DbFlg.plain (curEx.getD i []) [7]).1 = true →
        cursor_to_key DbFlg.plain curEx [7] .GE =
          some (i, (sblk_find_pi DbFlg.plain (curEx.getD i []) [7]).2) ∧
        keyAt (curEx.getD i [])
          (sblk_find_pi DbFlg.plain (curEx.getD i []) [7]).2 = [7]) ∧
      ((sblk_find_pi DbFlg.plain (curEx.getD i []) [7]).1 = false →
        1 ≤ (sblk_find_pi DbFlg.plain (curEx.getD i []) [7]).2 ∧
        cursor_to_key DbFlg.plain curEx [7] .GE =
          some (i, (sblk_find_pi DbFlg.plain (curEx.getD i []) [7]).2 - 1) ∧
        keyLt DbFlg.plain
          (keyAt (curEx.getD i [])
            ((sblk_find_pi DbFlg.plain (curEx.getD i []) [7]).2 - 1)) [7] ∧
        ∀ K ∈ dbKeys curEx,
          K = keyAt (curEx.getD i [])
            ((sblk_find_pi DbFlg.plain (curEx.getD i []) [7]).2 - 1) ∨
          keyLt DbFlg.plain K
            (keyAt (curEx.getD i [])
              ((sblk_find_pi DbFlg.plain (curEx.getD i []) [7]).2 - 1)) ∨
          keyLt DbFlg.plain [7] K))) :=
  ⟨by decide, by decide, C9_cursor_positioning (by decide) (by decide)⟩

/-! ## Claim C10: argument guards of `iwkv_put` -/

/-- The binary-search result index never exceeds the upper bound (no
well-formedness needed). -/
theorem findPiLoop_le {f : DbFlg} {ps : List KVPair} {k : Bytes} :
    ∀ fuel lb ubx, lb ≤ ubx → 0 < ubx →
      (findPiLoop f ps k fuel lb ubx).2 ≤ ubx := by
  intro fuel
  induction fuel with
  | zero => intro lb ubx hle _; exact hle
  | succ fl ih =>
    intro lb ubx hle hpos
    rw [findPiLoop]
    set idx := (ubx - 1 + lb) / 2 with hidx
    have hidxle : idx ≤ ubx - 1 := by omega
    split
    · omega
    · split
      · split
        · omega
        · exact ih (idx + 1) ubx (by omega) hpos
      · split
        · omega
        · exact le_trans (ih lb idx (by omega) (by omega)) (by omega)

theorem sblk_find_pi_le {f : DbFlg} {n : Node} {k : Bytes} :
    (sblk_find_pi f n k).2 ≤ n.length := by
  unfold sblk_find_pi
  split
  · simp
  · exact findPiLoop_le n.length 0 n.length (by omega) (by omega)

/-- Everything `_sblk_insert_pi_mm` stores was stored before or is the new
pair. -/
theorem sblk_insert_pi_subset {f : DbFlg} {ps : Node} {p q : KVPair}
    (hq : q ∈ sblk_insert_pi f ps p) : q = p ∨ q ∈ ps := by
  unfold sblk_insert_pi at hq
  split at hq
  · exact Or.inl (by simpa using hq)
  · rename_i hlen
    have hle : (findPiLoop f ps p.key ps.length 0 ps.length).2 ≤ ps.length :=
      findPiLoop_le ps.length 0 ps.length (by omega) (by omega)
    rcases hb : (findPiLoop f ps p.key ps.length 0 ps.length).1
    · simp only [hb, Bool.false_eq_true, if_false] at hq
      exact (List.mem_insertIdx hle).mp hq
    · simp only [hb, if_true] at hq
      exact (List.mem_insertIdx hle).mp ((List.dropLast_sublist _).mem hq)

theorem sblk_addkv_subset {f : DbFlg} {u u' : Node} {p q : KVPair}
    (h : sblk_addkv f u p = some u') (hq : q ∈ u') : q = p ∨ q ∈ u := by
  unfold sblk_addkv at h
  split at h
  · exact Option.noConfusion h
  · exact sblk_insert_pi_subset (Option.some.inj h ▸ hq)

/-- Everything the two halves of a split store was stored before or is the
new pair. -/
theorem lx_split_addkv_subset {f : DbFlg} {n n' nb : Node} {idx : Nat}
    {p q : KVPair} (h : lx_split_addkv f n idx p = some (n', nb))
    (hq : q ∈ n' ++ nb) : q = p ∨ q ∈ n := by
  unfold lx_split_addkv at h
  simp only [KVBLK_IDXNUM] at h
  split at h
  · rcases ha : sblk_addkv f [] p with _ | x
    · rw [ha] at h; exact Option.noConfusion h
    · rw [ha] at h
      simp only [Option.map_some'] at h
      obtain ⟨h1, h2⟩ := Prod.mk.injEq .. ▸ Option.some.inj h
      rcases List.mem_append.mp hq with hq1 | hq2
      · exact Or.inr (h1 ▸ hq1)
      · rcases sblk_addkv_subset ha (h2 ▸ hq2) with he | hmem
        · exact Or.inl he
        · simp at hmem
  · split at h
    · rcases ha : sblk_addkv f (n.drop (32 / 2 + 1)) p with _ | x
      · rw [ha] at h; exact Option.noConfusion h
      · rw [ha] at h
        simp only [Option.map_some'] at h
        obtain ⟨h1, h2⟩ := Prod.mk.injEq .. ▸ Option.some.inj h
        rcases List.mem_append.mp hq with hq1 | hq2
        · exact Or.inr (List.mem_of_mem_take (h1 ▸ hq1))
        · rcases sblk_addkv_subset ha (h2 ▸ hq2) with he | hmem
          · exact Or.inl he
          · exact Or.inr (List.mem_of_mem_drop hmem)
    · rcases ha : sblk_addkv f (n.take (32 / 2 + 1)) p with _ | x
      · rw [ha] at h; exact Option.noConfusion h
      · rw [ha] at h
        simp only [Option.map_some'] at h
        obtain ⟨h1, h2⟩ := Prod.mk.injEq .. ▸ Option.some.inj h
        rcases List.mem_append.mp hq with hq1 | hq2
        · rcases sblk_addkv_subset ha (h1 ▸ hq1) with he | hmem
          · exact Or.inl he
          · exact Or.inr (List.mem_of_mem_take hmem)
        · exact Or.inr (List.mem_of_mem_drop (h2 ▸ hq2))

/-- The descent index is always a real chain position. -/
theorem findLowerIdx_lt {f : DbFlg} {k : Bytes} :
    ∀ {s : List Node} {i : Nat}, findLowerIdx f k s = some i → i < s.length := by
  intro s
  induction s with
  | nil => intro i h; exact Option.noConfusion h
  | cons n rest ih =>
    intro i h
    rw [findLowerIdx] at h
    split at h
    · exact Option.noConfusion h
    · rcases hrest : findLowerIdx f k rest with _ | i'
      · rw [hrest] at h
        simp only [Option.some.injEq] at h
        subst h
        simp
      · rw [hrest] at h
        simp only [Option.some.injEq] at h
        subst h
        simpa using Nat.succ_lt_succ (ih hrest)

theorem mem_dbPairs_of {s : List Node} {n : Node} {q : KVPair}
    (hn : n ∈ s) (hq : q ∈ n) : q ∈ dbPairs s :=
  List.mem_flatten.mpr ⟨n, hn, hq⟩


theorem sblk_updatekv_subset {n n' : Node} {idx : Nat} {k v : Bytes}
    {q : KVPair} (h : sblk_updatekv n idx k v = some n') (hq : q ∈ n') :
    q.key = k ∨ q ∈ n := by
  unfold sblk_updatekv at h
  split at h
  · exact Option.noConfusion h
  · split at h
    · rename_i p0 hg hpk
      rw [← Option.some.inj h] at hq
      rcases List.mem_or_eq_of_mem_set hq with hmem | heq
      · exact Or.inr hmem
      · exact Or.inl (by rw [heq, hpk])
    · exact Option.noConfusion h

/-- Key-level frame property of a put, with no well-formedness assumption:
any key stored after `_lx_put_lw` is the put key or was stored before. -/
theorem lx_put_keys_subset {f : DbFlg} {s : List Node} {k v : Bytes}
    {no : Bool} : ∀ K ∈ dbKeys (lx_put f s k v no).2, K = k ∨ K ∈ dbKeys s := by
  intro K hK
  obtain ⟨q, hq, rfl⟩ := List.mem_map.mp hK
  suffices h : q.key = k ∨ q ∈ dbPairs s by
    rcases h with h | h
    · exact Or.inl h
    · exact Or.inr (List.mem_map_of_mem _ h)
  unfold lx_put at hq
  split at hq
  · -- descent stopped at the database header
    split at hq
    · -- empty chain: a fresh head node with just the new pair
      simp [dbPairs] at hq
      exact Or.inl (by rw [hq])
    · rename_i u rest
      split at hq
      · -- room in the first node
        split at hq
        · rename_i u' ha
          rw [dbPairs_cons] at hq
          rcases List.mem_append.mp hq with hq1 | hq2
          · rcases sblk_addkv_subset ha hq1 with he | hmem
            · exact Or.inl (by rw [he])
            · exact Or.inr (by rw [dbPairs_cons]; exact List.mem_append_left _ hmem)
          · exact Or.inr (by rw [dbPairs_cons]; exact List.mem_append_right _ hq2)
        · exact Or.inr hq
      · -- fresh head node
        rw [dbPairs_cons] at hq
        rcases List.mem_append.mp hq with hq1 | hq2
        · exact Or.inl (by simp at hq1; rw [hq1])
        · exact Or.inr hq2
  · -- descent pinned node i
    rename_i i hfl
    have hlen : i < s.length := findLowerIdx_lt hfl
    simp only [] at hq
    split at hq
    · -- binary search hit
      split at hq
      · exact Or.inr hq
      · split at hq
        · rename_i n' hu
          rw [dbPairs_set hlen] at hq
          rcases List.mem_append.mp hq with hq1 | hq2
          · obtain ⟨nn, hnn, hqnn⟩ := List.mem_flatten.mp hq1
            exact Or.inr (mem_dbPairs_of (List.mem_of_mem_take hnn) hqnn)
          · rcases List.mem_append.mp hq2 with hq3 | hq4
            · rcases sblk_updatekv_subset hu hq3 with he | hmem
              · exact Or.inl he
              · exact Or.inr (mem_dbPairs_of (getD_mem hlen) hmem)
            · obtain ⟨nn, hnn, hqnn⟩ := List.mem_flatten.mp hq4
              exact Or.inr (mem_dbPairs_of (List.mem_of_mem_drop hnn) hqnn)
        · exact Or.inr hq
    · -- miss
      split at hq
      · -- room: insert at the probe index
        split at hq
        · rename_i n' ha
          rw [dbPairs_set hlen] at hq
          unfold sblk_addkv2 at ha
          split at ha
          · exact Option.noConfusion ha
          · rcases List.mem_append.mp hq with hq1 | hq2
            · obtain ⟨nn, hnn, hqnn⟩ := List.mem_flatten.mp hq1
              exact Or.inr (mem_dbPairs_of (List.mem_of_mem_take hnn) hqnn)
            · rcases List.mem_append.mp hq2 with hq3 | hq4
              · rw [← Option.some.inj ha] at hq3
                rcases (List.mem_insertIdx sblk_find_pi_le).mp hq3 with he | hmem
                · exact Or.inl (by rw [he])
                · exact Or.inr (mem_dbPairs_of (getD_mem hlen) hmem)
              · obtain ⟨nn, hnn, hqnn⟩ := List.mem_flatten.mp hq4
                exact Or.inr (mem_dbPairs_of (List.mem_of_mem_drop hnn) hqnn)
        · exact Or.inr hq
      · -- full node: upper neighbour, else split
        split at hq
        · -- an upper neighbour exists
          rename_i u hup
          have humem : u ∈ s := by
            have hl1 : i + 1 < s.length := (List.getElem?_eq_some.mp hup).1
            have he : s[i + 1] = u := by
              have h' := hup
              rw [List.getElem?_eq_getElem hl1] at h'
              exact Option.some.inj h'
            exact he ▸ List.getElem_mem _
          split at hq
          · -- new pair appended into the upper neighbour
            split at hq
            · rename_i u' ha
              have hlen1 : i + 1 < s.length := (List.getElem?_eq_some.mp hup).1
              rw [dbPairs_set hlen1] at hq
              rcases List.mem_append.mp hq with hq1 | hq2
              · obtain ⟨nn, hnn, hqnn⟩ := List.mem_flatten.mp hq1
                exact Or.inr (mem_dbPairs_of (List.mem_of_mem_take hnn) hqnn)
              · rcases List.mem_append.mp hq2 with hq3 | hq4
                · rcases sblk_addkv_subset ha hq3 with he | hmem
                  · exact Or.inl (by rw [he])
                  · exact Or.inr (mem_dbPairs_of humem hmem)
                · obtain ⟨nn, hnn, hqnn⟩ := List.mem_flatten.mp hq4
                  exact Or.inr (mem_dbPairs_of (List.mem_of_mem_drop hnn) hqnn)
            · exact Or.inr hq
          · -- split the node
            split at hq
            · rename_i n' nb hsp
              obtain ⟨nn, hnn, hqnn⟩ := List.mem_flatten.mp hq
              have hile : i + 1 ≤ (s.set i n').length := by
                rw [List.length_set]; omega
              rcases (List.mem_insertIdx hile).mp hnn with rfl | hnn'
              · rcases lx_split_addkv_subset hsp (List.mem_append_right _ hqnn)
                    with he | hmem
                · exact Or.inl (by rw [he])
                · exact Or.inr (mem_dbPairs_of (getD_mem hlen) hmem)
              · rcases List.mem_or_eq_of_mem_set hnn' with hmem | rfl
                · exact Or.inr (mem_dbPairs_of hmem hqnn)
                · rcases lx_split_addkv_subset hsp (List.mem_append_left _ hqnn)
                      with he | hmem
                  · exact Or.inl (by rw [he])
                  · exact Or.inr (mem_dbPairs_of (getD_mem hlen) hmem)
            · exact Or.inr hq
        · -- no upper neighbour: split the node
          split at hq
          · rename_i n' nb hsp
            obtain ⟨nn, hnn, hqnn⟩ := List.mem_flatten.mp hq
            have hile : i + 1 ≤ (s.set i n').length := by
              rw [List.length_set]; omega
            rcases (List.mem_insertIdx hile).mp hnn with rfl | hnn'
            · rcases lx_split_addkv_subset hsp (List.mem_append_right _ hqnn)
                  with he | hmem
              · exact Or.inl (by rw [he])
              · exact Or.inr (mem_dbPairs_of (getD_mem hlen) hmem)
            · rcases List.mem_or_eq_of_mem_set hnn' with hmem | rfl
              · exact Or.inr (mem_dbPairs_of hmem hqnn)
              · rcases lx_split_addkv_subset hsp (List.mem_append_left _ hqnn)
                    with he | hmem
                · exact Or.inl (by rw [he])
                · exact Or.inr (mem_dbPairs_of (getD_mem hlen) hmem)
          · exact Or.inr hq

/-- C10.  `iwkv_put` argument guards: a missing (`NULL`) key, a key of size
zero, or a missing (`NULL`) value is rejected with `IW_ERROR_INVALID_ARGS`
and the state is untouched (in the C code these checks run before the API
lock is taken; locks are not modelled here).  Consequently the empty key can
never be stored: if it was absent it is still absent after any `iwkv_put`
whatsoever. -/
theorem C10_put_argument_guards {f : DbFlg} {s : List Node}
    {key val : Option Bytes} {no : Bool} :
    (key = none → iwkv_put f s key val no = (.invalidArgs, s)) ∧
    (∀ k, key = some k → k = [] → iwkv_put f s key val no = (.invalidArgs, s)) ∧
    (key ≠ none → val = none → iwkv_put f s key val no = (.invalidArgs, s)) ∧
    ([] ∉ dbKeys s → [] ∉ dbKeys (iwkv_put f s key val no).2) := by
  refine ⟨?_, ?_, ?_, ?_⟩
  · rintro rfl
    rfl
  · rintro k rfl rfl
    cases val with
    | none => rfl
    | some v => rfl
  · intro hkey hval
    cases key with
    | none => exact absurd rfl hkey
    | some k => rw [hval]; rfl
  · intro h0 hmem
    cases key with
    | none => exact h0 hmem
    | some k =>
      cases val with
      | none => exact h0 hmem
      | some v =>
        by_cases hk0 : k.length = 0
        · simp only [iwkv_put, if_pos hk0] at hmem
          exact h0 hmem
        · by_cases hw : (f.u32 = true ∧ k.length ≠ 4) ∨ (f.u64 = true ∧ k.length ≠ 8)
          · simp only [iwkv_put, if_neg hk0, if_pos hw] at hmem
            exact h0 hmem
          · simp only [iwkv_put, if_neg hk0, if_neg hw] at hmem
            rcases lx_put_keys_subset [] hmem with he | hmem'
            · exact hk0 (by rw [← he]; rfl)
            · exact h0 hmem'

/-- C10 witness: putting the empty key into a database holding `[5] ↦ [7]`
is rejected with the state unchanged, and the empty key stays absent. -/
theorem C10_put_argument_guards_witness :
    iwkv_put DbFlg.plain [[⟨[5], [7]⟩]] (some []) (some [1]) false =
      (.invalidArgs, [[⟨[5], [7]⟩]]) ∧
    iwkv_put DbFlg.plain [[⟨[5], [7]⟩]] none (some [1]) false =
      (.invalidArgs, [[⟨[5], [7]⟩]]) ∧
    iwkv_put DbFlg.plain [[⟨[5], [7]⟩]] (some [3]) none false =
      (.invalidArgs, [[⟨[5], [7]⟩]]) ∧
    [] ∉ dbKeys (iwkv_put DbFlg.plain [[⟨[5], [7]⟩]]
      (some []) (some [1]) false).2 :=
  ⟨C10_put_argument_guards.2.1 [] rfl rfl,
    C10_put_argument_guards.1 rfl,
    C10_put_argument_guards.2.2.1 (by decide) rfl,
    C10_put_argument_guards.2.2.2 (by decide)⟩

/-! ## Claim C6: skip-list level generation -/

/-- `SLEVELS` (iwkv.c:35). -/
def SLEVELS : Nat := 30

/-- The draw loop of `_sblk_genlevel` (iwkv.c:1607):
`for (lvl = 0; lvl < SLEVELS && !(r & 1); ++lvl) r >>= 1;` — the fuel is
`SLEVELS - lvl`, so the recursion mirrors the loop exactly. -/
def genlevelLoop (r : Nat) : Nat → Nat → Nat
  | 0, lvl => lvl
  | fuel + 1, lvl => if r % 2 = 0 then genlevelLoop (r / 2) fuel (lvl + 1) else lvl

/-- `_sblk_genlevel` before the orphan-level adjustment (iwkv.c:1606-1609):
draw `r = iwu_rand_u32()` (modelled as an arbitrary input), count trailing
zero bits up to `SLEVELS`, clamp to `SLEVELS - 1`. -/
def sblk_genlevel_draw (r : Nat) : Nat :=
  let lvl := genlevelLoop r SLEVELS 0
  if SLEVELS ≤ lvl then SLEVELS - 1 else lvl

/-- The adjustment loop (iwkv.c:1610-1612):
`while (ret > 0 && db->lcnt[ret - 1] == 0) --ret;`. -/
def genAdjust (lcnt : List Nat) : Nat → Nat
  | 0 => 0
  | ret + 1 => if lcnt.getD ret 0 = 0 then genAdjust lcnt ret else ret + 1

/-- `_sblk_genlevel` (iwkv.c:1592): the drawn clamped level, decremented
while the level just below has no nodes. -/
def sblk_genlevel (lcnt : List Nat) (r : Nat) : Nat :=
  genAdjust lcnt (sblk_genlevel_draw r)

theorem genlevelLoop_le (r : Nat) :
    ∀ fuel lvl, genlevelLoop r fuel lvl ≤ lvl + fuel := by
  intro fuel
  induction fuel generalizing r with
  | zero => intro lvl; simp [genlevelLoop]
  | succ fl ih =>
    intro lvl
    rw [genlevelLoop]
    split
    · exact le_trans (ih (r / 2) (lvl + 1)) (by omega)
    · omega

/-- Within the fuel budget the loop adds exactly the number of trailing zero
bits (characterised by `r % 2 ^ (t + 1) = 2 ^ t`). -/
theorem genlevelLoop_tz {t : Nat} :
    ∀ {r fuel lvl : Nat}, t < fuel → r % 2 ^ (t + 1) = 2 ^ t →
      genlevelLoop r fuel lvl = lvl + t := by
  induction t with
  | zero =>
    intro r fuel lvl hf hmod
    cases fuel with
    | zero => omega
    | succ fl =>
      rw [genlevelLoop, if_neg (by simp at hmod; omega)]
      omega
  | succ t ih =>
    intro r fuel lvl hf hmod
    cases fuel with
    | zero => omega
    | succ fl =>
      have hmod2 : r % 2 ^ (t + 2) = 2 ^ (t + 1) := hmod
      have heven : r % 2 = 0 := by
        have h1 : r % 2 = r % 2 ^ (t + 2) % 2 := by
          rw [Nat.mod_mod_of_dvd]
          exact dvd_pow_self 2 (by omega)
        rw [h1, hmod2, pow_succ]
        simp [Nat.mul_mod]
      rw [genlevelLoop, if_pos heven]
      have hmod' : r / 2 % 2 ^ (t + 1) = 2 ^ t := by
        have hdm := Nat.div_add_mod r (2 ^ (t + 2))
        rw [hmod2] at hdm
        have h2 : r = 2 * (2 ^ (t + 1) * (r / 2 ^ (t + 2)) + 2 ^ t) := by
          conv_lhs => rw [← hdm]
          ring
        have hr2 : r / 2 = 2 ^ (t + 1) * (r / 2 ^ (t + 2)) + 2 ^ t := by omega
        rw [hr2, Nat.add_comm, Nat.add_mul_mod_self_left]
        exact Nat.mod_eq_of_lt (Nat.pow_lt_pow_right (by omega) (by omega))
      rw [ih (by omega) hmod']
      omega

/-- With at least `fuel` trailing zero bits the loop consumes all its fuel. -/
theorem genlevelLoop_zero :
    ∀ {r fuel lvl : Nat}, r % 2 ^ fuel = 0 →
      genlevelLoop r fuel lvl = lvl + fuel := by
  intro r fuel
  induction fuel generalizing r with
  | zero => intro lvl _; simp [genlevelLoop]
  | succ fl ih =>
    intro lvl hmod
    obtain ⟨c, hc⟩ := Nat.dvd_of_mod_eq_zero hmod
    have heven : r % 2 = 0 := by
      have h2 : r = 2 * (2 ^ fl * c) := by rw [hc]; ring
      omega
    have hr2 : r / 2 = 2 ^ fl * c := by
      have h2 : r = 2 * (2 ^ fl * c) := by rw [hc]; ring
      omega
    have hmod' : r / 2 % 2 ^ fl = 0 := by
      rw [hr2]
      exact Nat.mul_mod_right _ _
    rw [genlevelLoop, if_pos heven, ih hmod']
    omega

theorem genAdjust_le (lcnt : List Nat) : ∀ n, genAdjust lcnt n ≤ n := by
  intro n
  induction n with
  | zero => simp [genAdjust]
  | succ m ih =>
    rw [genAdjust]
    split
    · omega
    · exact le_rfl

theorem genAdjust_pos (lcnt : List Nat) :
    ∀ n, 0 < genAdjust lcnt n →
      0 < lcnt.getD (genAdjust lcnt n - 1) 0 := by
  intro n
  induction n with
  | zero => intro h; simp [genAdjust] at h
  | succ m ih =>
    rw [genAdjust]
    split
    · exact ih
    · rename_i hcnt
      intro _
      simp only [Nat.add_sub_cancel]
      omega

theorem sblk_genlevel_draw_lt (r : Nat) : sblk_genlevel_draw r < SLEVELS := by
  unfold sblk_genlevel_draw
  have := genlevelLoop_le r SLEVELS 0
  show (if SLEVELS ≤ genlevelLoop r SLEVELS 0 then SLEVELS - 1
    else genlevelLoop r SLEVELS 0) < SLEVELS
  split
  · norm_num [SLEVELS]
  · omega

/-- C6.  `_sblk_genlevel`: the drawn level is the number of trailing zero
bits of the random 32-bit draw `r` (modelled as an arbitrary input; `t`
trailing zeros is characterised by `r % 2^(t+1) = 2^t`), clamped to
`SLEVELS - 1 = 29`; the returned level is then decremented while the level
just below is empty, so that — provided the level counts had no orphan
levels to begin with, the invariant the engine maintains — after the
insertion bumps `lcnt[ret]`, every level `i ≤ ret` has a positive node
count. -/
theorem C6_genlevel {lcnt : List Nat} {r : Nat}
    (hlen : lcnt.length = SLEVELS)
    (hdc : ∀ j, j < SLEVELS → 0 < lcnt.getD j 0 →
      ∀ i, i ≤ j → 0 < lcnt.getD i 0) :
    (∀ t, t < SLEVELS → r % 2 ^ (t + 1) = 2 ^ t → sblk_genlevel_draw r = t) ∧
    (r % 2 ^ SLEVELS = 0 → sblk_genlevel_draw r = SLEVELS - 1) ∧
    sblk_genlevel lcnt r ≤ sblk_genlevel_draw r ∧
    sblk_genlevel lcnt r < SLEVELS ∧
    (∀ i, i ≤ sblk_genlevel lcnt r →
      0 < (lcnt.set (sblk_genlevel lcnt r)
        (lcnt.getD (sblk_genlevel lcnt r) 0 + 1)).getD i 0) := by
  have hdrawlt := sblk_genlevel_draw_lt r
  have hadjle : sblk_genlevel lcnt r ≤ sblk_genlevel_draw r :=
    genAdjust_le lcnt _
  have hretlt : sblk_genlevel lcnt r < SLEVELS := by omega
  refine ⟨?_, ?_, hadjle, hretlt, ?_⟩
  · intro t ht hmod
    unfold sblk_genlevel_draw
    rw [genlevelLoop_tz ht hmod]
    rw [if_neg (by omega)]
    omega
  · intro hmod
    unfold sblk_genlevel_draw
    rw [genlevelLoop_zero hmod]
    rw [if_pos (by omega)]
  · intro i hi
    have hretlen : sblk_genlevel lcnt r < lcnt.length := by
      rw [hlen]; exact hretlt
    rcases Nat.eq_or_lt_of_le hi with rfl | hilt
    · rw [List.getD_eq_getElem?_getD, List.getElem?_set_self hretlen]
      simp
    · have hne : i ≠ sblk_genlevel lcnt r := by omega
      rw [List.getD_eq_getElem?_getD, List.getElem?_set_ne (by omega)]
      rw [← List.getD_eq_getElem?_getD]
      have hpos : 0 < lcnt.getD (sblk_genlevel lcnt r - 1) 0 := by
        have hposret : 0 < sblk_genlevel lcnt r := by omega
        exact genAdjust_pos lcnt (sblk_genlevel_draw r) hposret
      exact hdc (sblk_genlevel lcnt r - 1) (by omega) hpos i (by omega)

/-- C6 witness: `r = 8` (three trailing zero bits) with level counts
`[2, 1, 0, 0, …]` — the draw is 3 and the adjustment walks down to level 2,
whose insertion then leaves no orphan level. -/
theorem C6_genlevel_witness :
    (List.replicate 28 0).length + 2 = SLEVELS ∧
    ((2 :: 1 :: List.replicate 28 0).length = SLEVELS ∧
      (∀ j, j < SLEVELS → 0 < (2 :: 1 :: List.replicate 28 0).getD j 0 →
        ∀ i, i ≤ j → 0 < (2 :: 1 :: List.replicate 28 0).getD i 0)) ∧
    ((∀ t, t < SLEVELS → 8 % 2 ^ (t + 1) = 2 ^ t →
        sblk_genlevel_draw 8 = t) ∧
      (8 % 2 ^ SLEVELS = 0 → sblk_genlevel_draw 8 = SLEVELS - 1) ∧
      sblk_genlevel (2 :: 1 :: List.replicate 28 0) 8 ≤ sblk_genlevel_draw 8 ∧
      sblk_genlevel (2 :: 1 :: List.replicate 28 0) 8 < SLEVELS ∧
      (∀ i, i ≤ sblk_genlevel (2 :: 1 :: List.replicate 28 0) 8 →
        0 < ((2 :: 1 :: List.replicate 28 0).set
          (sblk_genlevel (2 :: 1 :: List.replicate 28 0) 8)
          ((2 :: 1 :: List.replicate 28 0).getD
            (sblk_genlevel (2 :: 1 :: List.replicate 28 0) 8) 0 + 1)).getD i 0)) :=
  ⟨by decide, ⟨by decide, by decide⟩, C6_genlevel (by decide) (by decide)⟩

/-! ## Claims C7 and C8: the FSM free-space manager -/

/-- `_FSMBK` (iwfsmfile.c): a free extent `(offset_blocks, length_blocks)`
(the bit-packing of the 64-bit word is abstracted away; offsets and lengths
are the decoded `u64` values). -/
structure FsmExtent where
  offset : Nat
  len : Nat
deriving DecidableEq, Repr

def UINT64_MAX : Nat := 2 ^ 64 - 1

/-- `_fsm_cmp` (iwfsmfile.c:129): `((lb < la) - (la < lb))`, and on equal
lengths `((ob < oa) - (oa < ob))`. -/
def fsm_cmp (a b : FsmExtent) : Int :=
  if ((if b.len < a.len then (1 : Int) else 0) -
      (if a.len < b.len then (1 : Int) else 0)) ≠ 0 then
    (if b.len < a.len then (1 : Int) else 0) -
      (if a.len < b.len then (1 : Int) else 0)
  else
    (if b.offset < a.offset then (1 : Int) else 0) -
      (if a.offset < b.offset then (1 : Int) else 0)

theorem fsm_cmp_neg_iff {a b : FsmExtent} :
    fsm_cmp a b < 0 ↔ a.len < b.len ∨ (a.len = b.len ∧ a.offset < b.offset) := by
  unfold fsm_cmp
  split_ifs <;> omega

theorem fsm_cmp_zero_iff {a b : FsmExtent} : fsm_cmp a b = 0 ↔ a = b := by
  obtain ⟨ao, al⟩ := a
  obtain ⟨bo, bl⟩ := b
  unfold fsm_cmp
  simp only [FsmExtent.mk.injEq]
  split_ifs <;> omega

theorem fsm_cmp_nonneg_iff {a b : FsmExtent} :
    0 ≤ fsm_cmp a b ↔ b.len < a.len ∨ (a.len = b.len ∧ b.offset ≤ a.offset) := by
  unfold fsm_cmp
  split_ifs <;> omega

/-- Modelled from the spec, for `utils/kbtree.h` which is not in `src/`
(`kb_intervalp`, called at iwfsmfile.c:270 to "Find best-fitted free-space
block"): on the ordered set of tree members, `lk` is the greatest element
not above the key and `uk` the least element not below it, in `_fsm_cmp`
order; either may be absent.  The tree is represented by its sorted member
list. -/
def kb_intervalp (t : List FsmExtent) (k : FsmExtent) :
    Option FsmExtent × Option FsmExtent :=
  ((t.filter (fun e => fsm_cmp e k ≤ 0)).getLast?,
   (t.filter (fun e => 0 ≤ fsm_cmp e k)).head?)

/-- The candidate choice of `_fsm_find_matching_fblock_lw` (iwfsmfile.c:274-
290): keep only bracketing candidates of sufficient length (`lk`, and `uk`
when distinct from `lk`), give insufficient or absent candidates the
distance `UINT64_MAX`, and return the candidate whose offset is nearest to
the requested offset, ties preferring `uk`. -/
def fsm_pick (offset_blk length_blk : Nat) (lk uk : Option FsmExtent) :
    Option FsmExtent :=
  if lk = none ∧ uk = none then none
  else
    if (if uk ≠ none ∧ uk ≠ lk ∧ length_blk ≤ (uk.map FsmExtent.len).getD 0 then
          (if offset_blk ≤ (uk.map FsmExtent.offset).getD 0 then
            (uk.map FsmExtent.offset).getD 0 - offset_blk
          else offset_blk - (uk.map FsmExtent.offset).getD 0)
        else UINT64_MAX) ≤
       (if lk ≠ none ∧ length_blk ≤ (lk.map FsmExtent.len).getD 0 then
          (if offset_blk ≤ (lk.map FsmExtent.offset).getD 0 then
            (lk.map FsmExtent.offset).getD 0 - offset_blk
          else offset_blk - (lk.map FsmExtent.offset).getD 0)
        else UINT64_MAX)
    then uk else lk

/-- `_fsm_find_matching_fblock_lw` (iwfsmfile.c:259): bracket the request
key with `kb_intervalp`, then choose by nearest offset. -/
def fsm_find_matching_fblock (t : List FsmExtent)
    (offset_blk length_blk : Nat) : Option FsmExtent :=
  fsm_pick offset_blk length_blk
    ((t.filter (fun e => fsm_cmp e ⟨offset_blk, length_blk⟩ ≤ 0)).getLast?)
    ((t.filter (fun e => 0 ≤ fsm_cmp e ⟨offset_blk, length_blk⟩)).head?)

/-- The inlined filters of `fsm_find_matching_fblock` are exactly the
`kb_intervalp` bracket. -/
theorem fsm_find_eq_intervalp (t : List FsmExtent) (offset_blk length_blk : Nat) :
    fsm_find_matching_fblock t offset_blk length_blk =
      fsm_pick offset_blk length_blk
        (kb_intervalp t ⟨offset_blk, length_blk⟩).1
        (kb_intervalp t ⟨offset_blk, length_blk⟩).2 := rfl

/-- With offset hint `0` the function returns the first sufficient extent in
tree order: the smallest sufficient length, lowest offset among those. -/
theorem fsm_find_zero_hint {t : List FsmExtent} {length_blk : Nat}
    (hsort : t.Pairwise (fun a b => fsm_cmp a b < 0))
    (hoff : ∀ e ∈ t, e.offset < 2 ^ 64) :
    fsm_find_matching_fblock t 0 length_blk =
      (t.filter (fun e => length_blk ≤ e.len)).head? := by
  have hUF : t.filter (fun e => decide (0 ≤ fsm_cmp e ⟨0, length_blk⟩)) =
      t.filter (fun e => decide (length_blk ≤ e.len)) :=
    List.filter_congr (fun e _ => by
      simp only [decide_eq_decide]
      rw [fsm_cmp_nonneg_iff]
      show length_blk < e.len ∨ (e.len = length_blk ∧ 0 ≤ e.offset) ↔
        length_blk ≤ e.len
      omega)
  unfold fsm_find_matching_fblock
  rw [hUF]
  rcases hL : (t.filter (fun e => decide (fsm_cmp e ⟨0, length_blk⟩ ≤ 0))).getLast?
      with _ | l
  · rcases hU : (t.filter (fun e => decide (length_blk ≤ e.len))).head? with _ | u
    · rw [hU]
      simp [fsm_pick]
    · rw [hU]
      -- no lower bracket, a sufficient upper candidate
      have humem : u ∈ t.filter (fun e => decide (length_blk ≤ e.len)) :=
        List.mem_of_mem_head? (Option.mem_def.mpr hU)
      have hulen : length_blk ≤ u.len :=
        of_decide_eq_true (List.mem_filter.mp humem).2
      have hut : u ∈ t := (List.mem_filter.mp humem).1
      have hubound : u.offset ≤ UINT64_MAX := by
        have := hoff u hut
        unfold UINT64_MAX
        omega
      unfold fsm_pick
      rw [if_neg (show ¬((none : Option FsmExtent) = none ∧
        (some u : Option FsmExtent) = none) by simp)]
      rw [if_pos (show (some u : Option FsmExtent) ≠ none ∧
          (some u : Option FsmExtent) ≠ (none : Option FsmExtent) ∧
          length_blk ≤ (Option.map FsmExtent.len (some u)).getD 0 from
        ⟨by simp, by simp, by simpa using hulen⟩)]
      rw [if_pos (show (0 : Nat) ≤ (Option.map FsmExtent.offset (some u)).getD 0
        from Nat.zero_le _)]
      rw [if_neg (show ¬((none : Option FsmExtent) ≠ none ∧
        length_blk ≤ (Option.map FsmExtent.len (none : Option FsmExtent)).getD 0)
        by simp)]
      rw [if_pos (show (Option.map FsmExtent.offset (some u)).getD 0 - 0 ≤
        UINT64_MAX from by simpa using hubound)]
  · -- a lower bracket exists
    have hlmem : l ∈ t.filter (fun e => decide (fsm_cmp e ⟨0, length_blk⟩ ≤ 0)) :=
      List.mem_of_getLast?_eq_some hL
    have hlcmp : fsm_cmp l ⟨0, length_blk⟩ ≤ 0 :=
      of_decide_eq_true (List.mem_filter.mp hlmem).2
    have hlt : l ∈ t := (List.mem_filter.mp hlmem).1
    rcases lt_or_eq_of_le hlcmp with hllt | hleq
    · -- the lower bracket is too short
      have hllen : l.len < length_blk := by
        rcases fsm_cmp_neg_iff.mp hllt with h | h
        · exact h
        · exact absurd h.2 (by simp)
      have hlkdist : ¬((some l : Option FsmExtent) ≠ none ∧
          length_blk ≤ (Option.map FsmExtent.len (some l)).getD 0) := by
        rintro ⟨-, hc⟩
        simp only [Option.map_some', Option.getD_some] at hc
        omega
      rcases hU : (t.filter (fun e => decide (length_blk ≤ e.len))).head? with _ | u
      · rw [hU]
        -- nothing sufficient at all
        unfold fsm_pick
        rw [if_neg (show ¬((some l : Option FsmExtent) = none ∧
          (none : Option FsmExtent) = none) by simp)]
        rw [if_neg (show ¬((none : Option FsmExtent) ≠ none ∧
          (none : Option FsmExtent) ≠ some l ∧
          length_blk ≤ (Option.map FsmExtent.len (none : Option FsmExtent)).getD 0)
          by simp)]
        rw [if_neg hlkdist]
        rw [if_pos le_rfl]
      · rw [hU]
        have humem : u ∈ t.filter (fun e => decide (length_blk ≤ e.len)) :=
          List.mem_of_mem_head? (Option.mem_def.mpr hU)
        have hulen : length_blk ≤ u.len :=
          of_decide_eq_true (List.mem_filter.mp humem).2
        have hut : u ∈ t := (List.mem_filter.mp humem).1
        have hubound : u.offset ≤ UINT64_MAX := by
          have := hoff u hut
          unfold UINT64_MAX
          omega
        have hul : u ≠ l := by
          intro hc
          rw [hc] at hulen
          omega
        unfold fsm_pick
        rw [if_neg (show ¬((some l : Option FsmExtent) = none ∧
          (some u : Option FsmExtent) = none) by simp)]
        rw [if_pos (show (some u : Option FsmExtent) ≠ none ∧
            (some u : Option FsmExtent) ≠ some l ∧
            length_blk ≤ (Option.map FsmExtent.len (some u)).getD 0 from
          ⟨by simp, by simpa using hul, by simpa using hulen⟩)]
        rw [if_pos (show (0 : Nat) ≤ (Option.map FsmExtent.offset (some u)).getD 0
          from Nat.zero_le _)]
        rw [if_neg hlkdist]
        rw [if_pos (show (Option.map FsmExtent.offset (some u)).getD 0 - 0 ≤
          UINT64_MAX from by simpa using hubound)]
    · -- the lower bracket is exactly the key: it is also the first match
      have hlk : l = ⟨0, length_blk⟩ := fsm_cmp_zero_iff.mp hleq
      obtain ⟨t1, t2, ht⟩ := List.append_of_mem hlt
      have hhead : (t.filter (fun e => decide (length_blk ≤ e.len))).head? =
          some l := by
        rw [ht, List.filter_append]
        have h1 : t1.filter (fun e => decide (length_blk ≤ e.len)) = [] := by
          rw [List.filter_eq_nil_iff]
          intro e he
          have hcross : fsm_cmp e l < 0 := by
            rw [ht, List.pairwise_append] at hsort
            exact hsort.2.2 e he l (List.mem_cons_self _ _)
          rcases fsm_cmp_neg_iff.mp hcross with h | h
          · rw [hlk] at h
            have h' : e.len < length_blk := h
            simp only [decide_eq_true_eq]
            omega
          · rw [hlk] at h
            exact absurd h.2 (by simp)
        rw [h1, List.nil_append, List.filter_cons_of_pos (by
          rw [hlk]
          simp)]
        rfl
      rw [hhead]
      unfold fsm_pick
      rw [if_neg (show ¬((some l : Option FsmExtent) = none ∧
        (some l : Option FsmExtent) = none) by simp)]
      rw [if_neg (show ¬((some l : Option FsmExtent) ≠ none ∧
          (some l : Option FsmExtent) ≠ some l ∧
          length_blk ≤ (Option.map FsmExtent.len (some l)).getD 0) by
        rintro ⟨-, hc, -⟩
        exact hc rfl)]
      rw [if_pos (show (some l : Option FsmExtent) ≠ none ∧
          length_blk ≤ (Option.map FsmExtent.len (some l)).getD 0 from
        ⟨by simp, by simp [hlk]⟩)]
      rw [if_pos (show (0 : Nat) ≤ (Option.map FsmExtent.offset (some l)).getD 0
        from Nat.zero_le _)]
      rw [if_neg (show ¬(UINT64_MAX ≤
          (Option.map FsmExtent.offset (some l)).getD 0 - 0) by
        simp only [Option.map_some', Option.getD_some, hlk]
        norm_num [UINT64_MAX])]

/-- C7 (amended).  `_fsm_cmp` orders free extents by (length **ASC**, then
offset ASC) — not `(length DESC, offset ASC)` as claimed; see the
counterexample.  With that order, and an offset hint of `0`, the chosen
extent is the first tree member of sufficient length — the smallest
sufficient extent with the lowest offset among extents of that length.  For
a general offset hint the function instead returns the bracketing candidate
of sufficient length nearest to the hinted offset, which need not be the
smallest sufficient extent (second counterexample conjunct). -/
theorem C7_fsm_order_and_first_match {t : List FsmExtent} {length_blk : Nat}
    (hsort : t.Pairwise (fun a b => fsm_cmp a b < 0))
    (hoff : ∀ e ∈ t, e.offset < 2 ^ 64) :
    (∀ a b : FsmExtent,
      (fsm_cmp a b < 0 ↔
        a.len < b.len ∨ (a.len = b.len ∧ a.offset < b.offset)) ∧
      (fsm_cmp a b = 0 ↔ a = b)) ∧
    fsm_find_matching_fblock t 0 length_blk =
      (t.filter (fun e => length_blk ≤ e.len)).head? :=
  ⟨fun _ _ => ⟨fsm_cmp_neg_iff, fsm_cmp_zero_iff⟩, fsm_find_zero_hint hsort hoff⟩

/-- An example free-extent tree, sorted in `_fsm_cmp` order. -/
def fsmTreeEx : List FsmExtent := [⟨7, 3⟩, ⟨2, 5⟩]

/-- C7 witness: on the example tree a request of 4 blocks with offset hint 0
returns extent `(offset 2, len 5)`, the first sufficient member. -/
theorem C7_fsm_order_and_first_match_witness :
    fsmTreeEx.Pairwise (fun a b => fsm_cmp a b < 0) ∧
    (∀ e ∈ fsmTreeEx, e.offset < 2 ^ 64) ∧
    ((∀ a b : FsmExtent,
      (fsm_cmp a b < 0 ↔
        a.len < b.len ∨ (a.len = b.len ∧ a.offset < b.offset)) ∧
      (fsm_cmp a b = 0 ↔ a = b)) ∧
    fsm_find_matching_fblock fsmTreeEx 0 4 =
      (fsmTreeEx.filter (fun e => 4 ≤ e.len)).head?) :=
  ⟨by decide, by decide, C7_fsm_order_and_first_match (by decide) (by decide)⟩

/-- C7 counterexample.  First: `_fsm_cmp` puts the *shorter* extent first
(`fsm_cmp ⟨5,10⟩ ⟨3,20⟩ = -1` although `10 < 20`), so the tree is ordered by
length ascending, refuting "(length DESC, offset ASC)".  Second: on the
sorted tree `[(10,5), (100,7)]` a request of 5 blocks with offset hint 90
returns `(100,7)` even though the sufficient extent `(10,5)` is both
shorter and of lower offset — the first match is the nearest bracketing
candidate, not "the smallest extent of sufficient length with the lowest
offset". -/
theorem C7_counterexample :
    (fsm_cmp ⟨5, 10⟩ ⟨3, 20⟩ = -1 ∧ (10 : Nat) < 20) ∧
    (([⟨10, 5⟩, ⟨100, 7⟩] : List FsmExtent).Pairwise
        (fun a b => fsm_cmp a b < 0) ∧
      fsm_find_matching_fblock [⟨10, 5⟩, ⟨100, 7⟩] 90 5 = some ⟨100, 7⟩ ∧
      (⟨10, 5⟩ : FsmExtent) ∈ ([⟨10, 5⟩, ⟨100, 7⟩] : List FsmExtent) ∧
      5 ≤ (⟨10, 5⟩ : FsmExtent).len ∧
      (⟨10, 5⟩ : FsmExtent).len < (⟨100, 7⟩ : FsmExtent).len ∧
      (⟨10, 5⟩ : FsmExtent).offset < (⟨100, 7⟩ : FsmExtent).offset) := by
  decide

/-- The absorb test of `_fsm_blk_allocate_lw` (iwfsmfile.c:964-971):
`d = crzsum/crznum − (nlength − length_blk)`, `s = crzvar/crznum · 6`,
absorb iff `s > 1 && d > 0 && d·d > s`.  The C `double_t` arithmetic is
modelled exactly over `ℚ` (faithful whenever `crznum > 0`). -/
def fsm_alloc_absorbs (crzsum crznum crzvar length_blk nlength : Nat) : Bool :=
  decide (1 < ((crzvar : ℚ) / (crznum : ℚ)) * 6 ∧
    0 < ((crzsum : ℚ) / (crznum : ℚ)) - ((nlength : ℚ) - (length_blk : ℚ)) ∧
    ((crzvar : ℚ) / (crznum : ℚ)) * 6 <
      (((crzsum : ℚ) / (crznum : ℚ)) - ((nlength : ℚ) - (length_blk : ℚ))) *
      (((crzsum : ℚ) / (crznum : ℚ)) - ((nlength : ℚ) - (length_blk : ℚ))))

/-- The tail handling of `_fsm_blk_allocate_lw` (iwfsmfile.c:955-979) once a
free extent of length `nlength` has been taken from the tree for a request
of `length_blk` blocks at `offset_blk`: the result is the assigned
`*olength_blk` together with the tail extent re-inserted into the tree
(`_fsm_put_fbk`), if any. -/
def fsm_blk_allocate_tail (offset_blk length_blk nlength : Nat)
    (crzsum crznum crzvar : Nat) (noOverallocate : Bool) :
    Nat × Option FsmExtent :=
  if length_blk < nlength then
    if ¬ noOverallocate ∧
        fsm_alloc_absorbs crzsum crznum crzvar length_blk nlength then
      (nlength, none)
    else (length_blk, some ⟨offset_blk + length_blk, nlength - length_blk⟩)
  else (length_blk, none)

/-- C8 (amended).  For an allocation without `IWFSM_ALLOC_NO_OVERALLOCATE`
whose chosen extent is longer than requested, the whole extent is absorbed
exactly when **all three** of `s > 1`, `d > 0` and `d² > s` hold, with
`d = avg − tail_len = crzsum/crznum − (nlength − length_blk)` and
`s = 6 · variance = 6 · crzvar/crznum`; otherwise — and always under
`NO_OVERALLOCATE` — the tail is split off and re-inserted.  Absorption
implies the claim's condition `(avg − tail_len)² > 6 · variance`, but not
conversely: the code also requires `s > 1` and `d > 0` (see the
counterexample). -/
theorem C8_absorb_heuristic {offset_blk length_blk nlength : Nat}
    {crzsum crznum crzvar : Nat} (hnz : 0 < crznum)
    (hlt : length_blk < nlength) :
    (fsm_blk_allocate_tail offset_blk length_blk nlength
        crzsum crznum crzvar false = (nlength, none) ↔
      (1 < ((crzvar : ℚ) / (crznum : ℚ)) * 6 ∧
        0 < ((crzsum : ℚ) / (crznum : ℚ)) - ((nlength : ℚ) - (length_blk : ℚ)) ∧
        ((crzvar : ℚ) / (crznum : ℚ)) * 6 <
          (((crzsum : ℚ) / (crznum : ℚ)) - ((nlength : ℚ) - (length_blk : ℚ))) *
          (((crzsum : ℚ) / (crznum : ℚ)) - ((nlength : ℚ) - (length_blk : ℚ))))) ∧
    (fsm_blk_allocate_tail offset_blk length_blk nlength
        crzsum crznum crzvar false = (nlength, none) →
      6 * ((crzvar : ℚ) / (crznum : ℚ)) <
        (((crzsum : ℚ) / (crznum : ℚ)) - ((nlength : ℚ) - (length_blk : ℚ))) ^ 2) ∧
    (fsm_blk_allocate_tail offset_blk length_blk nlength
        crzsum crznum crzvar false ≠ (nlength, none) →
      fsm_blk_allocate_tail offset_blk length_blk nlength
        crzsum crznum crzvar false =
        (length_blk, some ⟨offset_blk + length_blk, nlength - length_blk⟩)) ∧
    (fsm_blk_allocate_tail offset_blk length_blk nlength
        crzsum crznum crzvar true =
      (length_blk, some ⟨offset_blk + length_blk, nlength - length_blk⟩)) := by
  constructor
  · constructor
    · intro h
      unfold fsm_blk_allocate_tail at h
      rw [if_pos hlt] at h
      split at h
      · rename_i hcond
        exact of_decide_eq_true hcond.2
      · exact absurd (congrArg Prod.fst h) (by simp; omega)
    · intro hcond
      unfold fsm_blk_allocate_tail
      rw [if_pos hlt]
      rw [if_pos ⟨by simp, by unfold fsm_alloc_absorbs; exact decide_eq_true hcond⟩]
  · refine ⟨?_, ?_, ?_⟩
    · intro h
      unfold fsm_blk_allocate_tail at h
      rw [if_pos hlt] at h
      split at h
      · rename_i hcond
        obtain ⟨h1, h2, h3⟩ := of_decide_eq_true hcond.2
        rw [pow_two]
        calc 6 * ((crzvar : ℚ) / (crznum : ℚ)) =
            ((crzvar : ℚ) / (crznum : ℚ)) * 6 := by ring
          _ < _ := h3
      · exact absurd (congrArg Prod.fst h) (by simp; omega)
    · intro h
      unfold fsm_blk_allocate_tail at h ⊢
      rw [if_pos hlt] at h ⊢
      split at h
      · exact absurd rfl h
      · rename_i hcc
        rw [if_neg hcc]
    · unfold fsm_blk_allocate_tail
      rw [if_pos hlt]
      rw [if_neg (by rintro ⟨hc, -⟩; exact hc rfl)]

/-- C8 witness: statistics `crzsum = 10, crznum = 1, crzvar = 1`, request 5
blocks from a 6-block extent: `s = 6 > 1`, `d = 9 > 0`, `81 > 6`, so the
whole extent is absorbed. -/
theorem C8_absorb_heuristic_witness :
    (0 : Nat) < 1 ∧ (5 : Nat) < 6 ∧
    ((fsm_blk_allocate_tail 0 5 6 10 1 1 false = (6, none) ↔
      (1 < ((1 : ℚ) / (1 : ℚ)) * 6 ∧
        0 < ((10 : ℚ) / (1 : ℚ)) - ((6 : ℚ) - (5 : ℚ)) ∧
        ((1 : ℚ) / (1 : ℚ)) * 6 <
          (((10 : ℚ) / (1 : ℚ)) - ((6 : ℚ) - (5 : ℚ))) *
          (((10 : ℚ) / (1 : ℚ)) - ((6 : ℚ) - (5 : ℚ))))) ∧
    (fsm_blk_allocate_tail 0 5 6 10 1 1 false = (6, none) →
      6 * ((1 : ℚ) / (1 : ℚ)) <
        (((10 : ℚ) / (1 : ℚ)) - ((6 : ℚ) - (5 : ℚ))) ^ 2) ∧
    (fsm_blk_allocate_tail 0 5 6 10 1 1 false ≠ (6, none) →
      fsm_blk_allocate_tail 0 5 6 10 1 1 false = (5, some ⟨0 + 5, 6 - 5⟩)) ∧
    (fsm_blk_allocate_tail 0 5 6 10 1 1 true = (5, some ⟨0 + 5, 6 - 5⟩))) :=
  ⟨by decide, by decide, C8_absorb_heuristic (by decide) (by decide)⟩

/-- C8 counterexample to the original claim: with `crzsum = 10, crznum = 1,
crzvar = 0`, a request of 5 blocks from a 6-block extent has
`(avg − tail_len)² = 81 > 0 = 6 · variance` — the claim's condition holds —
yet the code splits the extent (re-inserting the 1-block tail at offset 5)
instead of absorbing it, because its additional guard `s > 1` fails
(`s = 6 · crzvar/crznum = 0`). -/
theorem C8_counterexample :
    fsm_blk_allocate_tail 0 5 6 10 1 0 false = (5, some ⟨5, 1⟩) ∧
    6 * ((0 : ℚ) / (1 : ℚ)) <
      (((10 : ℚ) / (1 : ℚ)) - ((6 : ℚ) - (5 : ℚ))) ^ 2 := by
  constructor
  · unfold fsm_blk_allocate_tail
    rw [if_pos (by norm_num)]
    rw [if_neg (by
      rintro ⟨-, habs⟩
      unfold fsm_alloc_absorbs at habs
      rw [decide_eq_true_eq] at habs
      obtain ⟨h1, -, -⟩ := habs
      norm_num at h1)]
  · norm_num

end Iwkv
